import Mathlib

/-! # CtoK: coordinate deduplication, tour cost and driver

A shallow embedding of `CtoK.cpp` and `file.h`.

* `std::vector<T>` is a `List T`; an iterator is a position (`Nat`) into it.
* `double` is modelled by `ℝ` (exact real arithmetic); an operation that has no
  value in exact real arithmetic (a division by zero, `tan` at a pole, `log` of
  a non-positive number) makes the enclosing function return `none`.
* `int` is modelled by the integers of the 32-bit range inside `Int`: the
  conversion `(int)x` has no value when the truncated `x` is out of that range,
  a sum of two `int`s is the sum the machine keeps, reduced modulo `2^32` into
  that range (`wrapInt`), and `std::stoi` throws out of it. `size_t` is modelled by `Nat`.
* A value that is stored without having been assigned (a component of `dRow`,
  the `i` of `readCycleFile`) is modelled by `none` in its place.
* The deduplication is generic in the element type and in the comparison
  `eq` that stands for `operator==`, so that its theorems do not depend on
  `==` being reflexive (it is not on IEEE doubles).
-/

namespace CtoK

universe u

variable {α : Type u}

/-! ## `removeDuplicates` (CtoK.cpp, lines 50-65) -/

/-- The scan of `std::find`: `it` is the current iterator and the first argument
the number of positions left before `last`. -/
def findLoop (eq : α → α → Bool) (v : List α) (value : α) : Nat → Nat → Nat
  | 0, it => it
  | k + 1, it =>
    match v[it]? with
    | some x => if eq x value then it else findLoop eq v value k (it + 1)
    | none => it

/-- The call `std::find(first, last, value)` on the vector `v`: the position of
the first element of `[first, last)` that compares equal to `value`, or `last`. -/
def find (eq : α → α → Bool) (v : List α) (first last : Nat) (value : α) : Nat :=
  findLoop eq v value (last - first) first

/-- The `for` loop of `removeDuplicates`, with `first = 0` and `last = v.size()`:
the first argument counts the iterations left, `current` and `newLast` are the
two iterators, `v` is the vector being overwritten in place. -/
def removeDuplicatesLoop (eq : α → α → Bool) : Nat → Nat → List α → Nat → List α × Nat
  | 0, _, v, newLast => (v, newLast)
  | k + 1, current, v, newLast =>
    match v[current]? with
    | none => (v, newLast)
    | some x =>
      if find eq v 0 newLast x = newLast then
        removeDuplicatesLoop eq k (current + 1)
          (if newLast ≠ current then v.set newLast x else v) (newLast + 1)
      else
        removeDuplicatesLoop eq k (current + 1) v newLast

/-- The call `removeDuplicates(v.begin(), v.end())`: the vector as the call leaves
it, and the returned iterator `newLast`. -/
def removeDuplicates (eq : α → α → Bool) (v : List α) : List α × Nat :=
  removeDuplicatesLoop eq v.length 0 v 0

/-- The call `v.erase(first, last)` of `std::vector`. -/
def erase (v : List α) (first last : Nat) : List α :=
  v.take first ++ v.drop last

/-- Deduplication as `main` performs it:
`coordinates.erase(removeDuplicates(coordinates.begin(), coordinates.end()), coordinates.end())`. -/
def dedup (eq : α → α → Bool) (v : List α) : List α :=
  erase (removeDuplicates eq v).1 (removeDuplicates eq v).2 (removeDuplicates eq v).1.length

/-- The elements kept by a stable first-occurrence scan: `kept` are the elements
already kept, each further element is appended when no kept element compares
equal to it. Used to state the loop invariant of `removeDuplicatesLoop`. -/
def keepFirst (eq : α → α → Bool) : List α → List α → List α
  | kept, [] => kept
  | kept, x :: xs =>
    if kept.all (fun y => !eq y x) then keepFirst eq (kept ++ [x]) xs else keepFirst eq kept xs

/-- The first occurrences among `xs`, where `seen` are the elements at earlier
positions: an element is listed when no earlier element compares equal to it. -/
def firstOccFrom (eq : α → α → Bool) : List α → List α → List α
  | _, [] => []
  | seen, x :: xs =>
    if seen.all (fun y => !eq y x) then x :: firstOccFrom eq (seen ++ [x]) xs
    else firstOccFrom eq (seen ++ [x]) xs

/-! ## Constants (CtoK.cpp, lines 29-43) -/

/-- The constant `MIN_COORDINATES`. -/
def MIN_COORDINATES : Nat := 4

/-- A coordinate, `std::array<double, 2>`: component `LATITUDE` (index 0) first,
component `LONGITUDE` (index 1) second. -/
abbrev Coord : Type := ℝ × ℝ

/-- The constant `M_PI` of `math.h`. -/
noncomputable def M_PI : ℝ := Real.pi

/-- The constant `KM_PER_NM`. -/
noncomputable def KM_PER_NM : ℝ := 1.852

/-- The constant `NM_PER_KM`. -/
noncomputable def NM_PER_KM : ℝ := 1 / 1.852

/-! ## The distance model (CtoK.cpp, lines 67-99)

Operations of `math.h` that have no value in exact real arithmetic return `none`. -/

/-- The quotient `a / b`, without value when `b = 0`. -/
noncomputable def fdiv (a b : ℝ) : Option ℝ :=
  if b = 0 then none else some (a / b)

/-- The function `tan`, without value where the cosine vanishes. -/
noncomputable def tan (x : ℝ) : Option ℝ :=
  if Real.cos x = 0 then none else some (Real.tan x)

/-- The function `log`, without value on non-positive arguments. -/
noncomputable def log (x : ℝ) : Option ℝ :=
  if 0 < x then some (Real.log x) else none

/-- The function `atan2(y, x)`: the angle in `(-π, π]` of the point `(x, y)`, and
`0` at the origin. -/
noncomputable def atan2 (y x : ℝ) : ℝ :=
  Complex.arg ⟨x, y⟩

/-- Degrees to radians, `DegToRad`. -/
noncomputable def DegToRad (degree : ℝ) : ℝ :=
  (degree / 180) * M_PI

/-- Radians to degrees, `RadToDeg`. -/
noncomputable def RadToDeg (radian : ℝ) : ℝ :=
  (radian / M_PI) * 180

/-- The function `Mod`. -/
noncomputable def Mod (y x : ℝ) : Option ℝ :=
  if y ≥ 0 then
    (fdiv y x).map (fun q => y - x * (⌊q⌋ : ℝ))
  else
    (fdiv y x).map (fun q => y + x * ((⌊-q⌋ : ℝ) + 1))

/-- The true course `tc` computed at the start of `rhumbline`. -/
noncomputable def trueCourse (p1lat p1long p2lat p2long : ℝ) : Option ℝ := do
  let t2 ← tan (DegToRad p2lat / 2 + M_PI / 4)
  let t1 ← tan (DegToRad p1lat / 2 + M_PI / 4)
  let q ← fdiv t2 t1
  let l ← log q
  Mod (atan2 (DegToRad (p1long - p2long)) l) (M_PI * 2)

/-- The test `(tc > 1.570795 && tc < 1.570797) || (tc > 4.71238 && tc < 4.71239)`. -/
def inWindow (tc : ℝ) : Prop :=
  (tc > 1.570795 ∧ tc < 1.570797) ∨ (tc > 4.71238 ∧ tc < 4.71239)

noncomputable instance inWindowDecidable (tc : ℝ) : Decidable (inWindow tc) := by
  unfold inWindow
  infer_instance

/-- The distance in nautical miles that `rhumbline` assigns to `d` for a true
course `tc`. -/
noncomputable def distanceNM (tc p1lat p1long p2lat p2long : ℝ) : Option ℝ :=
  if inWindow tc then
    some (60 * |p2long - p1long| * Real.cos (DegToRad p1lat))
  else
    (fdiv (p2lat - p1lat) (Real.cos tc)).map (fun q => 60 * q)

/-- The function `rhumbline`: the rhumb-line distance in kilometres. -/
noncomputable def rhumbline (p1lat p1long p2lat p2long : ℝ) : Option ℝ := do
  let tc ← trueCourse p1lat p1long p2lat p2long
  let d ← distanceNM tc p1lat p1long p2lat p2long
  pure (d * KM_PER_NM)

/-! ## Tour cost (CtoK.cpp, lines 101-114) -/

/-- The constant `scaleFactor`. -/
noncomputable def scaleFactor : ℝ := 10

/-- The truncation of a real number toward zero. -/
noncomputable def trunc (x : ℝ) : Int :=
  if 0 ≤ x then ⌊x⌋ else ⌈x⌉

/-- The conversion `(int)x` of a `double`: truncation toward zero, without value
when the truncated value is not an `int`, that is, not between `-2^31` and
`2^31 - 1`. -/
noncomputable def toInt (x : ℝ) : Option Int :=
  if -2147483648 ≤ trunc x ∧ trunc x ≤ 2147483647 then some (trunc x) else none

/-- The `int` that holds an integer result on the machine: the result reduced
modulo `2^32` into the range from `-2^31` to `2^31 - 1`. -/
def wrapInt (n : Int) : Int :=
  (n + 2147483648) % 4294967296 - 2147483648

/-- The access `pts[i]` with an `int` index; without value when the index,
converted to `size_t`, is out of range. -/
def ptAt (pts : List Coord) (i : Int) : Option Coord :=
  if 0 ≤ i then pts[i.toNat]? else none

/-- The expression `(int)(rhumbline(a[LATITUDE], a[LONGITUDE], b[LATITUDE], b[LONGITUDE]) * scaleFactor)`. -/
noncomputable def scaledDistance (a b : Coord) : Option Int :=
  (rhumbline a.1 a.2 b.1 b.2).bind (fun d => toInt (d * scaleFactor))

/-- The same expression for the coordinates `pts[i]` and `pts[j]`. -/
noncomputable def edgeCost (pts : List Coord) (i j : Int) : Option Int := do
  let a ← ptAt pts i
  let b ← ptAt pts j
  scaledDistance a b

/-- The `for` loop of `calcCost`: the first argument counts the iterations left,
`i` is the position of the iterator, `d` the accumulator, and `d += ...` is the
sum kept in an `int`. -/
noncomputable def calcCostLoop (tour : List Int) (pts : List Coord) : Nat → Nat → Int → Option Int
  | 0, _, d => some d
  | k + 1, i, d => do
    let a ← tour[i]?
    let b ← tour[i + 1]?
    let e ← edgeCost pts a b
    calcCostLoop tour pts k (i + 1) (wrapInt (d + e))

/-- The function `calcCost`. -/
noncomputable def calcCost (tour : List Int) (pts : List Coord) : Option Int := do
  let first ← tour[0]?
  let last ← tour[tour.length - 1]?
  let d ← edgeCost pts first last
  calcCostLoop tour pts (tour.length - 1) 0 d

/-! ## Writing the tour-input file (file.h, lines 86-114) -/

/-- The scan of `find_last_of`: `i` is the position of the next character, `r`
the last matching position seen so far. -/
def findLastOfLoop (chars : List Char) : List Char → Nat → Option Nat → Option Nat
  | [], _, r => r
  | c :: cs, i, r => findLastOfLoop chars cs (i + 1) (if c ∈ chars then some i else r)

/-- The call `s.find_last_of(chars)`: the last position of `s` holding one of
`chars`, `none` standing for `npos`. -/
def find_last_of (s : String) (chars : List Char) : Option Nat :=
  findLastOfLoop chars s.toList 0 none

/-- The call `s.substr(0, pos)`. -/
def substr0 (s : String) (pos : Nat) : String :=
  String.mk (s.toList.take pos)

/-- The name `tspName` that `writeTSPFile` derives: `out` is `removeExt(fn)`
followed by `.tsp`, and `tspName` starts as `removeExt(fn)`. -/
def tspName (stem : String) : String :=
  let out := stem ++ ".tsp"
  match find_last_of out ['\\', '/', '.'] with
  | some pos => if out.toList[pos]? = some '.' then substr0 out pos else stem
  | none => stem

/-- The `for` loop of `writeTSPFile`, each iteration writing the line
`i + 1 << " " << pts[i][LONGITUDE] << " " << pts[i][LATITUDE]`: the first
argument counts the iterations left before `ncount`; without value when some
`pts[i]` is out of range. -/
def nodeLinesLoop (showDouble : ℝ → String) (pts : List Coord) : Nat → Nat → Option (List String)
  | 0, _ => some []
  | k + 1, i => do
    let p ← pts[i]?
    let rest ← nodeLinesLoop showDouble pts k (i + 1)
    pure ((toString (i + 1) ++ " " ++ showDouble p.2 ++ " " ++ showDouble p.1) :: rest)

/-- The lines written by the loop for `i` from `0` below `ncount`. -/
def nodeLines (showDouble : ℝ → String) (ncount : Nat) (pts : List Coord) :
    Option (List String) :=
  nodeLinesLoop showDouble pts ncount 0

/-- The text `writeTSPFile` sends to the stream once the file is open, line by
line. `stem` is `removeExt(fn)` (`removeExt` is declared in `kml.h`) and
`showDouble` is the formatting of a `double` by `operator<<`. -/
def tspLines (showDouble : ℝ → String) (stem : String) (ncount : Nat) (pts : List Coord) :
    Option (List String) :=
  (nodeLines showDouble ncount pts).map (fun nodes =>
    [ "NAME: " ++ tspName stem ++ toString ncount,
      "TYPE: TSP",
      "COMMENT: Generated by CtoK writeTSPFile",
      "DIMENSION: " ++ toString ncount,
      "EDGE_WEIGHT_TYPE: EUC_2D",
      "NODE_COORD_SECTION" ] ++ nodes)

/-- The function `writeTSPFile`: its return value and the text written (`none`
inside when the output file cannot be opened); `opens` tells whether
`ofs.open` succeeds. -/
def writeTSPFile (showDouble : ℝ → String) (opens : Bool) (stem : String) (ncount : Nat)
    (pts : List Coord) : Option (Bool × Option (List String)) :=
  if opens then
    (tspLines showDouble stem ncount pts).map (fun ls => (true, some ls))
  else
    some (false, none)

/-! ## The driver (CtoK.cpp, lines 116-195) -/

/-- What the driver finds outside the program. -/
structure Env where
  /-- The function `removeExt` of `kml.h`. -/
  removeExt : String → String
  /-- The formatting of a `double` by `operator<<`. -/
  showDouble : ℝ → String
  /-- The rows `readCSVFile(fn, table)` appends to the empty `table`; the count it
  returns is their number (none when the file cannot be opened). -/
  csvRows : String → List Coord
  /-- The entries `readCycleFile(fn, tour)` appends to the empty `tour`; the count
  it returns is their number. -/
  cycleEntries : String → List Int
  /-- Whether the `.tsp` output of `writeTSPFile(fn, ...)` can be opened. -/
  tspOpens : String → Bool

/-- The value returned by `main`. -/
inductive ExitCode where
  | EXIT_SUCCESS
  | EXIT_FAILURE
  deriving DecidableEq

/-- What a run of `main` does that can be observed, in order. -/
inductive Effect where
  /-- The usage text. -/
  | usage
  /-- The message `Insufficeint number of coordinates: n`. -/
  | insufficient (n : Nat)
  /-- The message `k duplicate coordinates removed.` -/
  | duplicatesRemoved (k : Nat)
  /-- The message `Number of coordinates: k`. -/
  | numberOfCoordinates (k : Nat)
  /-- The call of `writeTSPFile`, with the text it wrote, if any. -/
  | tspFile (written : Option (List String))
  /-- The message that the coordinate count does not match the cycle file. -/
  | mismatch (numCoords numEdges : Nat)
  /-- The call of `calcCost` and its result. -/
  | costEvaluated (tour : List Int) (pts : List Coord) (cost : Int)
  /-- The message `Total distance: ... nm`, and the tour path printed after it:
  every `tour[i] + 1`, then `tour[0] + 1`. -/
  | totalDistance (nm : ℝ) (path : List Int)
  /-- The call of `writeFile`, which writes the visualization. -/
  | kmlFile (fn : String) (pts : List Coord) (tour : List Int) (outputPoints : Bool)

/-- Whether the effect is a call of `calcCost`. -/
def Effect.isCostEvaluated : Effect → Bool
  | Effect.costEvaluated _ _ _ => true
  | _ => false

/-- Whether the effect is an attempt to write an output, the tour-input file or
the visualization. -/
def Effect.isOutput : Effect → Bool
  | Effect.tspFile _ => true
  | Effect.kmlFile _ _ _ _ => true
  | _ => false

/-- The report `if (n != numCoords) std::cout << (n - numCoords) << " duplicate coordinates removed.\n"`. -/
def removedReport (n numCoords : Nat) : List Effect :=
  if n ≠ numCoords then [Effect.duplicatesRemoved (n - numCoords)] else []

/-- An environment for the scenarios: the input holds `rows`, the cycle file
holds `cycle`, the output file can be opened, `removeExt` leaves the name as it
is and every `double` prints as `#`. -/
def scenarioEnv (rows : List Coord) (cycle : List Int) : Env where
  removeExt := fun fn => fn
  showDouble := fun _ => "#"
  csvRows := fun _ => rows
  cycleEntries := fun _ => cycle
  tspOpens := fun _ => true

/-- The four coordinates of the scenarios, pairwise different. -/
noncomputable def fourCoords : List Coord :=
  [(40.0, -75.0), (41.0, -76.0), (42.0, -77.0), (43.0, -78.0)]

/-- The loop `while (argc > 2)` that parses the options, from the last argument
down to `argv[2]`. -/
def parseCommandline (argv : List String) : Nat → Bool → Bool → Bool × Bool
  | 0, outputPoints, outputTSPFile => (outputPoints, outputTSPFile)
  | argc + 1, outputPoints, outputTSPFile =>
    if argc + 1 > 2 then
      let option := argv.getD argc ""
      parseCommandline argv argc
        (if option = "-n" ∨ option = "-N" then false else outputPoints)
        (if option = "-o" ∨ option = "-O" then true else outputTSPFile)
    else
      (outputPoints, outputTSPFile)

/-- The comparison `operator==` of two coordinates. -/
noncomputable def coordEq (a b : Coord) : Bool :=
  decide (a = b)

/-- The function `main`: the effects of the run and the exit code, or `none` when
the run has no defined behaviour. -/
noncomputable def main (env : Env) (argv : List String) : Option (List Effect × ExitCode) :=
  if argv.length < 2 then
    some ([Effect.usage], ExitCode.EXIT_FAILURE)
  else
    let fn := argv.getD 1 ""
    let (outputPoints, outputTSPFile) := parseCommandline argv argv.length true false
    let table := env.csvRows fn
    let n := table.length
    if n < MIN_COORDINATES then
      some ([Effect.insufficient n], ExitCode.EXIT_FAILURE)
    else
      let coordinates := dedup coordEq table
      let numCoords := coordinates.length
      let removed := removedReport n numCoords
      if outputTSPFile then
        (writeTSPFile env.showDouble (env.tspOpens fn) (env.removeExt fn) numCoords coordinates).map
          (fun r => (removed ++ [Effect.numberOfCoordinates numCoords, Effect.tspFile r.2],
            ExitCode.EXIT_SUCCESS))
      else
        let tour := env.cycleEntries fn
        let numEdges := tour.length
        if numEdges ≠ numCoords then
          some (removed ++ [Effect.mismatch numCoords numEdges], ExitCode.EXIT_FAILURE)
        else
          (calcCost tour coordinates).map (fun cost =>
            (removed ++ [Effect.costEvaluated tour coordinates cost,
                Effect.numberOfCoordinates numCoords,
                Effect.totalDistance ((cost / scaleFactor) * NM_PER_KM)
                  ((tour ++ tour.take 1).map (fun i => i + 1)),
                Effect.kmlFile fn coordinates tour outputPoints],
              ExitCode.EXIT_SUCCESS))

/-- A comparison on `Option Nat` that, like `==` on doubles, is not reflexive:
`none` plays the part of a NaN and compares unequal to everything. -/
def nanEq : Option Nat → Option Nat → Bool
  | some a, some b => a == b
  | _, _ => false

/-! ## Values used to state the lemmas on the distance model -/

/-- The value of `log(tan(p2lat / 2 + π / 4) / tan(p1lat / 2 + π / 4))`, angles in
radians, where it is defined. -/
noncomputable def logRatio (p1lat p2lat : ℝ) : ℝ :=
  Real.log (Real.tan (DegToRad p2lat / 2 + M_PI / 4) / Real.tan (DegToRad p1lat / 2 + M_PI / 4))

/-- The value of `Mod(y, 2π)` for an angle `y` of `(-π, π]`. -/
noncomputable def normalize (y : ℝ) : ℝ :=
  if 0 ≤ y then y else y + 2 * Real.pi

/-- The value of the true course where it is defined. -/
noncomputable def courseValue (p1lat p1long p2lat p2long : ℝ) : ℝ :=
  normalize (atan2 (DegToRad (p1long - p2long)) (logRatio p1lat p2lat))

/-- The value of `rhumbline` where it is defined. -/
noncomputable def distanceValue (p1lat p1long p2lat p2long : ℝ) : ℝ :=
  (if inWindow (courseValue p1lat p1long p2lat p2long) then
      60 * |p2long - p1long| * Real.cos (DegToRad p1lat)
    else
      60 * ((p2lat - p1lat) / Real.cos (courseValue p1lat p1long p2lat p2long))) * KM_PER_NM

/-! ## Reading the input files (file.h, lines 27-84) -/

/-- The tokens that the loop `while (getline(ss, value, separator))` reads from a
row: `cur` holds the characters of the token being read. A token ends at a
separator; at the end of the row a last token is read when at least one
character is left for it. -/
def tokensLoop (separator : Char) : List Char → List Char → List String
  | cur, [] => if cur = [] then [] else [String.mk cur]
  | cur, c :: cs =>
    if c = separator then String.mk cur :: tokensLoop separator [] cs
    else tokensLoop separator (cur ++ [c]) cs

/-- The tokens of a row for a separator. -/
def tokens (separator : Char) (sRow : String) : List String :=
  tokensLoop separator [] sRow.toList

/-- The characters `isspace` accepts. -/
def isSpace (c : Char) : Bool :=
  c = ' ' || c = '\t' || c = '\n' || c = '\x0b' || c = '\x0c' || c = '\r'

/-- The value of a sequence of decimal digits. -/
def digitsValue (ds : List Char) : Nat :=
  ds.foldl (fun v c => 10 * v + (c.toNat - '0'.toNat)) 0

/-- The function `std::stoi` in base 10: leading white space is skipped, a sign
is optional, the digits that follow are converted and the rest is ignored.
`none` stands for the exception thrown when there is no digit
(`invalid_argument`) or when the value is not an `int` (`out_of_range`). -/
def stoi (value : String) : Option Int :=
  let cs := value.toList.dropWhile isSpace
  let signed : Bool × List Char :=
    match cs with
    | '-' :: rest => (true, rest)
    | '+' :: rest => (false, rest)
    | rest => (false, rest)
  let ds := signed.2.takeWhile Char.isDigit
  if ds = [] then none
  else
    let v : Int := if signed.1 then -(digitsValue ds : Int) else (digitsValue ds : Int)
    if -2147483648 ≤ v ∧ v ≤ 2147483647 then some v else none

/-- The inner loop of `readCycleFile`, `while (getline(ss, value, separator)) i = std::stoi(value);`:
`i` is `none` while the variable has not been assigned; the result is `none`
when a conversion throws. -/
def lastIndex : List String → Option Int → Option (Option Int)
  | [], i => some i
  | value :: rest, _ =>
    match stoi value with
    | none => none
    | some v => lastIndex rest (some v)

/-- The outer loop of `readCycleFile` over the rows `getline(ifs, sRow)` yields.
An entry of the tour is `none` when the `i` pushed was never assigned, which
happens for a row without token. -/
def readCycleRows : List String → List (Option Int) → Nat → Option (List (Option Int) × Nat)
  | [], tour, n => some (tour, n)
  | sRow :: rows, tour, n =>
    match lastIndex (tokens ' ' sRow) none with
    | some i => readCycleRows rows (tour ++ [i]) (n + 1)
    | none => none

/-- The function `readCycleFile`: `file` holds the rows of the `.cyc` file, or
`none` when the file cannot be opened; the result is the tour after the call and
the count returned, or `none` when a conversion throws. -/
def readCycleFile (file : Option (List String)) (tour : List (Option Int)) :
    Option (List (Option Int) × Nat) :=
  match file with
  | some rows => readCycleRows rows tour 0
  | none => some (tour, 0)

/-- A row `dRow` of `readCSVFile` while it is filled: a component is `none` as
long as it has not been assigned. -/
abbrev RawRow : Type := Option ℝ × Option ℝ

/-- The inner loop of `readCSVFile`, `while (getline(ss, value, separator)) dRow[i++] = std::stod(value);`.
`stod` is `std::stod`, `none` standing for the exception it throws. The result is
`none` when a conversion throws or when a third field is written past the end
of `dRow`. -/
def fillRow (stod : String → Option ℝ) : List String → Nat → RawRow → Option RawRow
  | [], _, dRow => some dRow
  | value :: rest, i, dRow =>
    match stod value with
    | none => none
    | some x =>
      if i = 0 then fillRow stod rest (i + 1) (some x, dRow.2)
      else if i = 1 then fillRow stod rest (i + 1) (dRow.1, some x)
      else none

/-- The outer loop of `readCSVFile` over the rows of the file. -/
def readCSVRows (stod : String → Option ℝ) : List String → List RawRow → Nat →
    Option (List RawRow × Nat)
  | [], table, n => some (table, n)
  | sRow :: rows, table, n =>
    match fillRow stod (tokens ',' sRow) 0 (none, none) with
    | some dRow => readCSVRows stod rows (table ++ [dRow]) (n + 1)
    | none => none

/-- The function `readCSVFile`: `file` holds the rows of the `.csv` file, or
`none` when the file cannot be opened; the result is the table after the call and
the count returned, or `none` when the call does not return. -/
def readCSVFile (stod : String → Option ℝ) (file : Option (List String)) (table : List RawRow) :
    Option (List RawRow × Nat) :=
  match file with
  | some rows => readCSVRows stod rows table 0
  | none => some (table, 0)

/-- The value of `std::stod` on the plain decimal numerals of the scenarios: an
optional sign, digits, and an optional fraction; `none` when the text does not
start with a digit after the sign. -/
noncomputable def stodPlain (value : String) : Option ℝ :=
  let cs := value.toList.dropWhile isSpace
  let signed : Bool × List Char :=
    match cs with
    | '-' :: rest => (true, rest)
    | '+' :: rest => (false, rest)
    | rest => (false, rest)
  let whole := signed.2.takeWhile Char.isDigit
  let after := signed.2.dropWhile Char.isDigit
  let frac : List Char :=
    match after with
    | '.' :: rest => rest.takeWhile Char.isDigit
    | _ => []
  if whole = [] then none
  else
    let x : ℝ := (digitsValue whole : ℝ) + (digitsValue frac : ℝ) / (10 : ℝ) ^ frac.length
    some (if signed.1 then -x else x)

/-! ## Texts used to state the claims on the readers -/

/-- A decimal integer as it is written: whether it has a minus sign, and its
digits. -/
abbrev Numeral : Type := Bool × List Char

/-- The characters of a numeral. -/
def Numeral.text (t : Numeral) : List Char :=
  (if t.1 then ['-'] else []) ++ t.2

/-- The integer a numeral denotes. -/
def Numeral.value (t : Numeral) : Int :=
  if t.1 then -(digitsValue t.2 : Int) else (digitsValue t.2 : Int)

/-- A numeral is well formed when it has at least one digit, only digits, and
denotes an `int`. -/
def Numeral.wellFormed (t : Numeral) : Prop :=
  t.2 ≠ [] ∧ (∀ c ∈ t.2, c.isDigit = true) ∧ -2147483648 ≤ t.value ∧ t.value ≤ 2147483647

/-- The texts separated by single spaces. -/
def spaced : List (List Char) → List Char
  | [] => []
  | [t] => t
  | t :: ts => t ++ ' ' :: spaced ts

/-- The row that holds the numerals separated by single spaces. -/
def numeralRow (r : List Numeral) : String :=
  String.mk (spaced (r.map Numeral.text))

/-- The value of the last numeral of a row. -/
def lastValue (r : List Numeral) : Int :=
  match r.getLast? with
  | some t => t.value
  | none => 0

/-! ## The element accesses of `calcCost` -/

/-- Why an evaluation of `calcCost` yields no value. -/
inductive Fault where
  /-- An element of a vector is accessed out of range. -/
  | outOfRange
  /-- A distance has no value in exact real arithmetic. -/
  | noValue
  /-- A scaled distance, truncated, is not an `int`. -/
  | notAnInt
  deriving DecidableEq

/-- The access `tour[i]`. -/
def tourAtE (tour : List Int) (i : Nat) : Except Fault Int :=
  match tour[i]? with
  | some t => Except.ok t
  | none => Except.error Fault.outOfRange

/-- The access `pts[i]` with an `int` index. -/
def ptAtE (pts : List Coord) (i : Int) : Except Fault Coord :=
  match ptAt pts i with
  | some p => Except.ok p
  | none => Except.error Fault.outOfRange

/-- The expression `(int)(rhumbline(pts[i][LATITUDE], ..., pts[j][LONGITUDE]) * scaleFactor)`,
the two accesses first. -/
noncomputable def edgeCostE (pts : List Coord) (i j : Int) : Except Fault Int := do
  let a ← ptAtE pts i
  let b ← ptAtE pts j
  match rhumbline a.1 a.2 b.1 b.2 with
  | none => Except.error Fault.noValue
  | some d =>
    match toInt (d * scaleFactor) with
    | some e => Except.ok e
    | none => Except.error Fault.notAnInt

/-- The `for` loop of `calcCost`, as `calcCostLoop`, telling the faults apart. -/
noncomputable def calcCostLoopE (tour : List Int) (pts : List Coord) :
    Nat → Nat → Int → Except Fault Int
  | 0, _, d => Except.ok d
  | k + 1, i, d => do
    let a ← tourAtE tour i
    let b ← tourAtE tour (i + 1)
    let e ← edgeCostE pts a b
    calcCostLoopE tour pts k (i + 1) (wrapInt (d + e))

/-- The function `calcCost`, telling the faults apart. -/
noncomputable def calcCostE (tour : List Int) (pts : List Coord) : Except Fault Int := do
  let first ← tourAtE tour 0
  let last ← tourAtE tour (tour.length - 1)
  let d ← edgeCostE pts first last
  calcCostLoopE tour pts (tour.length - 1) 0 d

/-- The conditions of the branches of `main` that lead to the call of `calcCost`:
an input name is given, at least `MIN_COORDINATES` records were read, `-o` is
absent, and the cycle file has as many entries as coordinates are left. -/
def reachesCalcCost (env : Env) (argv : List String) : Prop :=
  2 ≤ argv.length
    ∧ MIN_COORDINATES ≤ (env.csvRows (argv.getD 1 "")).length
    ∧ (parseCommandline argv argv.length true false).2 = false
    ∧ (env.cycleEntries (argv.getD 1 "")).length
        = (dedup coordEq (env.csvRows (argv.getD 1 ""))).length

/-! # Lemmas -/

theorem nanEq_trans : ∀ a b c, nanEq a b = true → nanEq b c = true → nanEq a c = true := by
  intro a b c h1 h2
  cases a <;> cases b <;> cases c <;> simp_all [nanEq]

theorem nanEq_symm : ∀ a b, nanEq a b = true → nanEq b a = true := by
  intro a b h
  cases a <;> cases b <;> simp_all [nanEq]

/-! ## Lemmas on `removeDuplicates` -/

theorem findLoop_eq_iff (eq : α → α → Bool) (v : List α) (value : α) :
    ∀ (k it : Nat), it + k ≤ v.length →
      (findLoop eq v value k it = it + k ↔ ∀ y ∈ (v.drop it).take k, eq y value = false) := by
  intro k
  induction k with
  | zero => intro it _; simp [findLoop]
  | succ k ih =>
    intro it h
    have hit : it < v.length := by omega
    have hd : v.drop it = v[it] :: v.drop (it + 1) := List.drop_eq_getElem_cons hit
    rw [findLoop, List.getElem?_eq_getElem hit]
    simp only [hd, List.take_succ_cons, List.mem_cons, forall_eq_or_imp]
    cases hx : eq v[it] value with
    | true => simp
    | false =>
      simp only [Bool.false_eq_true, if_false, true_and]
      rw [← ih (it + 1) (by omega)]
      constructor <;> intro h' <;> omega

theorem find_eq_last_iff (eq : α → α → Bool) (v : List α) (value : α) (newLast : Nat)
    (h : newLast ≤ v.length) :
    find eq v 0 newLast value = newLast ↔ (v.take newLast).all (fun y => !eq y value) = true := by
  have := findLoop_eq_iff eq v value newLast 0 (by omega)
  simp only [Nat.zero_add, List.drop_zero] at this
  simp [find, this]

theorem removeDuplicatesLoop_spec (eq : α → α → Bool) :
    ∀ (k current : Nat) (v : List α) (newLast : Nat),
      current + k = v.length → newLast ≤ current →
      (removeDuplicatesLoop eq k current v newLast).1.take
          (removeDuplicatesLoop eq k current v newLast).2
        = keepFirst eq (v.take newLast) (v.drop current)
      ∧ (removeDuplicatesLoop eq k current v newLast).1.length = v.length
      ∧ (removeDuplicatesLoop eq k current v newLast).2 ≤ v.length := by
  intro k
  induction k with
  | zero =>
    intro current v newLast h1 h2
    have : v.drop current = [] := List.drop_eq_nil_of_le (by omega)
    simp [removeDuplicatesLoop, this, keepFirst]
    omega
  | succ k ih =>
    intro current v newLast h1 h2
    have hc : current < v.length := by omega
    have hd : v.drop current = v[current] :: v.drop (current + 1) :=
      List.drop_eq_getElem_cons hc
    rw [removeDuplicatesLoop, List.getElem?_eq_getElem hc]
    simp only [hd, keepFirst, find_eq_last_iff eq v v[current] newLast (by omega)]
    by_cases hk : (v.take newLast).all (fun y => !eq y v[current]) = true
    · simp only [hk, if_true]
      have hset : (if newLast ≠ current then v.set newLast v[current] else v)
          = v.set newLast v[current] := by
        by_cases hne : newLast = current
        · subst hne
          simp only [ne_eq, not_true_eq_false, if_false]
          refine List.ext_getElem? fun i => ?_
          rw [List.getElem?_set]
          split
          · next h => subst h; simp
          · rfl
        · simp [hne]
      rw [hset]
      have hlen : (v.set newLast v[current]).length = v.length := by simp
      obtain ⟨a, b, c⟩ := ih (current + 1) (v.set newLast v[current]) (newLast + 1)
        (by rw [hlen]; omega) (by omega)
      refine ⟨?_, by rw [b, hlen], by rw [hlen] at c; exact c⟩
      rw [a]
      congr 1
      · rw [List.take_succ, List.set_take,
          List.set_eq_of_length_le (by simp), List.getElem?_set_self (by omega)]
        rfl
      · rw [List.drop_set_of_lt _ _ (by omega)]
    · simp only [hk, Bool.false_eq_true, if_false]
      exact ih (current + 1) v newLast (by omega) (by omega)

theorem dedup_eq_keepFirst (eq : α → α → Bool) (v : List α) :
    dedup eq v = keepFirst eq [] v := by
  obtain ⟨a, b, _⟩ := removeDuplicatesLoop_spec eq v.length 0 v 0 (by simp) (Nat.le_refl _)
  simp only [List.take_zero, List.drop_zero] at a
  simp [dedup, erase, removeDuplicates, a]

theorem keepFirst_eq_firstOccFrom (eq : α → α → Bool)
    (htrans : ∀ a b c, eq a b = true → eq b c = true → eq a c = true) :
    ∀ (xs kept seen : List α),
      (∀ z, kept.all (fun y => !eq y z) = seen.all (fun y => !eq y z)) →
      keepFirst eq kept xs = kept ++ firstOccFrom eq seen xs := by
  intro xs
  induction xs with
  | nil => intro kept seen _; simp [keepFirst, firstOccFrom]
  | cons x xs ih =>
    intro kept seen h
    rw [keepFirst, firstOccFrom, h x]
    by_cases hk : seen.all (fun y => !eq y x) = true
    · simp only [hk, if_true]
      rw [ih (kept ++ [x]) (seen ++ [x])]
      · simp
      · intro z
        simp only [List.all_append, h z]
    · simp only [hk, Bool.false_eq_true, if_false]
      apply ih kept (seen ++ [x])
      intro z
      rw [List.all_append, ← h z]
      cases hxz : eq x z with
      | false => simp [hxz]
      | true =>
        have hk' : ¬ kept.all (fun y => !eq y x) = true := by rw [h x]; exact hk
        simp only [List.all_eq_true, Bool.not_eq_true', not_forall] at hk'
        obtain ⟨y, hy, hyx, -⟩ : ∃ y, y ∈ kept ∧ eq y x = true ∧ True := by
          obtain ⟨y, hy, hyx⟩ := hk'
          exact ⟨y, hy, by simpa using hyx, trivial⟩
        have hyz : eq y z = true := htrans y x z hyx hxz
        have : kept.all (fun y => !eq y z) = false := by
          rw [List.all_eq_false]
          exact ⟨y, hy, by simp [hyz]⟩
        simp [this, hxz]

theorem enumFrom_filter_eq_firstOccFrom (eq : α → α → Bool) :
    ∀ (xs pre : List α),
      ((xs.enumFrom pre.length).filter
          (fun p => ((pre ++ xs).take p.1).all (fun y => !eq y p.2))).map Prod.snd
        = firstOccFrom eq pre xs := by
  intro xs
  induction xs with
  | nil => intro pre; simp [firstOccFrom]
  | cons x xs ih =>
    intro pre
    have h := ih (pre ++ [x])
    simp only [List.length_append, List.length_singleton, List.append_assoc,
      List.singleton_append] at h
    rw [List.enumFrom_cons, List.filter_cons, firstOccFrom]
    simp only [List.take_left]
    by_cases hk : pre.all (fun y => !eq y x) = true
    · simp only [hk, if_true, List.map_cons, h]
    · simp only [hk, Bool.false_eq_true, if_false, h]

theorem keepFirst_pairwise (eq : α → α → Bool) :
    ∀ (xs kept : List α), kept.Pairwise (fun a b => eq a b = false) →
      (keepFirst eq kept xs).Pairwise (fun a b => eq a b = false) := by
  intro xs
  induction xs with
  | nil => intro kept h; simpa [keepFirst] using h
  | cons x xs ih =>
    intro kept h
    rw [keepFirst]
    by_cases hk : kept.all (fun y => !eq y x) = true
    · simp only [hk, if_true]
      apply ih
      rw [List.pairwise_append]
      refine ⟨h, by simp, ?_⟩
      intro a ha b hb
      simp only [List.mem_singleton] at hb
      subst hb
      simpa using (List.all_eq_true.mp hk) a ha
    · simp only [hk, Bool.false_eq_true, if_false]
      exact ih kept h

theorem keepFirst_of_pairwise (eq : α → α → Bool) :
    ∀ (xs kept : List α), (kept ++ xs).Pairwise (fun a b => eq a b = false) →
      keepFirst eq kept xs = kept ++ xs := by
  intro xs
  induction xs with
  | nil => intro kept _; simp [keepFirst]
  | cons x xs ih =>
    intro kept h
    have hk : kept.all (fun y => !eq y x) = true := by
      rw [List.all_eq_true]
      intro y hy
      have := (List.pairwise_append.mp h).2.2 y hy x (List.mem_cons_self _ _)
      simp [this]
    rw [keepFirst]
    simp only [hk, if_true]
    rw [ih (kept ++ [x]) (by simpa using h)]
    simp

theorem length_filter_add (p : α → Bool) (l : List α) :
    (l.filter p).length + (l.filter (fun a => !p a)).length = l.length := by
  induction l with
  | nil => rfl
  | cons a l ih =>
    cases h : p a <;> simp [List.filter_cons, h] <;> omega

theorem dedup_fourCoords : dedup coordEq fourCoords = fourCoords := by
  rw [dedup_eq_keepFirst]
  norm_num [keepFirst, coordEq, fourCoords]

/-! ## Lemmas on the distance model -/

theorem M_PI_pos : 0 < M_PI := Real.pi_pos

theorem fdiv_of_ne (a : ℝ) {b : ℝ} (h : b ≠ 0) : fdiv a b = some (a / b) := by
  simp [fdiv, h]

theorem halfAngle_mem (lat : ℝ) (h1 : -90 < lat) (h2 : lat < 90) :
    0 < DegToRad lat / 2 + M_PI / 4 ∧ DegToRad lat / 2 + M_PI / 4 < Real.pi / 2 := by
  have hp := Real.pi_pos
  unfold DegToRad M_PI
  constructor <;> nlinarith

theorem tan_halfAngle (lat : ℝ) (h1 : -90 < lat) (h2 : lat < 90) :
    tan (DegToRad lat / 2 + M_PI / 4) = some (Real.tan (DegToRad lat / 2 + M_PI / 4))
      ∧ 0 < Real.tan (DegToRad lat / 2 + M_PI / 4) := by
  obtain ⟨ha, hb⟩ := halfAngle_mem lat h1 h2
  have hc : 0 < Real.cos (DegToRad lat / 2 + M_PI / 4) :=
    Real.cos_pos_of_mem_Ioo ⟨by linarith, hb⟩
  exact ⟨by simp [tan, hc.ne'], Real.tan_pos_of_pos_of_lt_pi_div_two ha hb⟩

/-- The value of `Mod(y, 2π)` for an angle `y` in `(-π, π]`. -/
theorem Mod_of_angle (y : ℝ) (h1 : -Real.pi < y) (h2 : y ≤ Real.pi) :
    Mod y (M_PI * 2) = some (if 0 ≤ y then y else y + 2 * Real.pi) := by
  have hp := Real.pi_pos
  have hne : M_PI * 2 ≠ 0 := by unfold M_PI; positivity
  unfold Mod
  rw [fdiv_of_ne _ hne]
  by_cases hy : 0 ≤ y
  · have hf : ⌊y / (M_PI * 2)⌋ = 0 := by
      rw [Int.floor_eq_zero_iff]
      unfold M_PI
      constructor
      · positivity
      · rw [div_lt_one (by positivity)]; linarith
    have hy' : y ≥ 0 := hy
    rw [if_pos hy', if_pos hy, Option.map_some', hf]
    simp
  · have hf : ⌊-(y / (M_PI * 2))⌋ = 0 := by
      rw [Int.floor_eq_zero_iff]
      unfold M_PI
      push_neg at hy
      constructor
      · rw [← neg_div]; apply div_nonneg <;> linarith
      · rw [← neg_div, div_lt_one (by positivity)]; linarith
    have hy' : ¬ y ≥ 0 := hy
    rw [if_neg hy', if_neg hy, Option.map_some', hf]
    simp only [M_PI, Int.cast_zero, zero_add, mul_one]
    rw [mul_comm]

theorem Mod_of_angle_normalize (y : ℝ) (h1 : -Real.pi < y) (h2 : y ≤ Real.pi) :
    Mod y (M_PI * 2) = some (normalize y) :=
  Mod_of_angle y h1 h2

/-- With latitudes strictly between -90 and 90 degrees the true course has the
value `courseValue`. -/
theorem trueCourse_of_valid (p1lat p1long p2lat p2long : ℝ)
    (h1 : -90 < p1lat) (h1' : p1lat < 90) (h2 : -90 < p2lat) (h2' : p2lat < 90) :
    trueCourse p1lat p1long p2lat p2long = some (courseValue p1lat p1long p2lat p2long) := by
  obtain ⟨e1, t1⟩ := tan_halfAngle p1lat h1 h1'
  obtain ⟨e2, t2⟩ := tan_halfAngle p2lat h2 h2'
  have hq : 0 < Real.tan (DegToRad p2lat / 2 + M_PI / 4)
      / Real.tan (DegToRad p1lat / 2 + M_PI / 4) := div_pos t2 t1
  unfold trueCourse
  rw [e1, e2]
  simp only [Option.bind_eq_bind, Option.some_bind, fdiv_of_ne _ t1.ne', log, hq, if_true]
  exact Mod_of_angle_normalize _ (Complex.neg_pi_lt_arg _) (Complex.arg_le_pi _)

theorem halfAngle_lt (lat1 lat2 : ℝ) (h : lat1 < lat2) :
    DegToRad lat1 / 2 + M_PI / 4 < DegToRad lat2 / 2 + M_PI / 4 := by
  have hp := Real.pi_pos
  unfold DegToRad M_PI
  have : lat1 / 180 * Real.pi < lat2 / 180 * Real.pi := by
    apply mul_lt_mul_of_pos_right _ hp
    linarith
  linarith

theorem logRatio_pos (p1lat p2lat : ℝ) (h1 : -90 < p1lat) (h2' : p2lat < 90)
    (h : p1lat < p2lat) : 0 < logRatio p1lat p2lat := by
  obtain ⟨_, t1⟩ := tan_halfAngle p1lat h1 (by linarith)
  obtain ⟨a1, _⟩ := halfAngle_mem p1lat h1 (by linarith)
  obtain ⟨_, b2⟩ := halfAngle_mem p2lat (by linarith) h2'
  apply Real.log_pos
  rw [one_lt_div t1]
  exact Real.tan_lt_tan_of_lt_of_lt_pi_div_two (by linarith [Real.pi_pos]) b2
    (halfAngle_lt _ _ h)

theorem logRatio_neg (p1lat p2lat : ℝ) (h1' : p1lat < 90) (h2 : -90 < p2lat)
    (h : p2lat < p1lat) : logRatio p1lat p2lat < 0 := by
  obtain ⟨_, t1⟩ := tan_halfAngle p1lat (by linarith) h1'
  obtain ⟨_, t2⟩ := tan_halfAngle p2lat h2 (by linarith)
  obtain ⟨a2, _⟩ := halfAngle_mem p2lat h2 (by linarith)
  obtain ⟨_, b1⟩ := halfAngle_mem p1lat (by linarith) h1'
  apply Real.log_neg (div_pos t2 t1)
  rw [div_lt_one t1]
  exact Real.tan_lt_tan_of_lt_of_lt_pi_div_two (by linarith [Real.pi_pos]) b1
    (halfAngle_lt _ _ h)

theorem logRatio_self (lat : ℝ) (h : Real.tan (DegToRad lat / 2 + M_PI / 4) ≠ 0) :
    logRatio lat lat = 0 := by
  unfold logRatio
  rw [div_self h, Real.log_one]

theorem cos_normalize (y : ℝ) : Real.cos (normalize y) = Real.cos y := by
  unfold normalize
  split
  · rfl
  · exact Real.cos_add_two_pi y

theorem pi_div_two_inWindow : inWindow (Real.pi / 2) := by
  have h1 := Real.pi_gt_d6
  have h2 := Real.pi_lt_d6
  left
  constructor <;> norm_num at h1 h2 ⊢ <;> linarith

theorem three_pi_div_two_inWindow : inWindow (3 * Real.pi / 2) := by
  have h1 := Real.pi_gt_d6
  have h2 := Real.pi_lt_d6
  right
  constructor <;> norm_num at h1 h2 ⊢ <;> linarith

/-- A normalized angle at which the cosine vanishes lies in one of the two windows. -/
theorem inWindow_of_cos_eq_zero (y : ℝ) (h1 : -Real.pi < y) (h2 : y ≤ Real.pi)
    (hc : Real.cos (normalize y) = 0) : inWindow (normalize y) := by
  have hp := Real.pi_pos
  rw [cos_normalize] at hc
  have hy : y = Real.pi / 2 ∨ y = -(Real.pi / 2) := by
    obtain ⟨k, hk⟩ := Real.cos_eq_zero_iff.mp hc
    have hk1 : (-3 : ℝ) < 2 * k + 1 := by
      by_contra hcon
      push_neg at hcon
      have : (2 * (k : ℝ) + 1) * Real.pi / 2 ≤ -3 * Real.pi / 2 := by nlinarith
      linarith
    have hk2 : 2 * (k : ℝ) + 1 ≤ 2 := by
      by_contra hcon
      push_neg at hcon
      have : 2 * Real.pi / 2 < (2 * (k : ℝ) + 1) * Real.pi / 2 := by nlinarith
      linarith
    have hk1' : (-3 : ℤ) < 2 * k + 1 := by exact_mod_cast hk1
    have hk2' : 2 * k + 1 ≤ (2 : ℤ) := by exact_mod_cast hk2
    have hk3 : k = -1 ∨ k = 0 := by omega
    rcases hk3 with rfl | rfl
    · right; rw [hk]; push_cast; ring
    · left; rw [hk]; push_cast; ring
  unfold normalize
  rcases hy with rfl | rfl
  · rw [if_pos (by positivity)]
    exact pi_div_two_inWindow
  · rw [if_neg (by linarith)]
    have : -(Real.pi / 2) + 2 * Real.pi = 3 * Real.pi / 2 := by ring
    rw [this]
    exact three_pi_div_two_inWindow

/-- Outside the two windows the cosine of the true course does not vanish. -/
theorem cos_courseValue_ne_zero (p1lat p1long p2lat p2long : ℝ)
    (hw : ¬ inWindow (courseValue p1lat p1long p2lat p2long)) :
    Real.cos (courseValue p1lat p1long p2lat p2long) ≠ 0 :=
  fun h0 => hw (inWindow_of_cos_eq_zero _ (Complex.neg_pi_lt_arg _) (Complex.arg_le_pi _) h0)

/-- The general branch: with latitudes strictly between -90 and 90 degrees the
quotient `(p2lat - p1lat) / cos(tc)` is non-negative. -/
theorem general_quotient_nonneg (p1lat p1long p2lat p2long : ℝ)
    (h1 : -90 < p1lat) (h1' : p1lat < 90) (h2 : -90 < p2lat) (h2' : p2lat < 90) :
    0 ≤ (p2lat - p1lat) / Real.cos (courseValue p1lat p1long p2lat p2long) := by
  unfold courseValue
  rw [cos_normalize]
  unfold atan2
  rcases lt_trichotomy p1lat p2lat with h | h | h
  · have hl := logRatio_pos p1lat p2lat h1 h2' h
    have hz : (⟨logRatio p1lat p2lat, DegToRad (p1long - p2long)⟩ : ℂ) ≠ 0 :=
      fun h0 => hl.ne' (congrArg Complex.re h0)
    rw [Complex.cos_arg hz]
    apply div_nonneg (by linarith)
    exact div_nonneg hl.le (Complex.abs.nonneg _)
  · subst h
    simp
  · have hl := logRatio_neg p1lat p2lat h1' h2 h
    have hz : (⟨logRatio p1lat p2lat, DegToRad (p1long - p2long)⟩ : ℂ) ≠ 0 :=
      fun h0 => hl.ne (congrArg Complex.re h0)
    rw [Complex.cos_arg hz]
    apply div_nonneg_of_nonpos (by linarith)
    exact div_nonpos_of_nonpos_of_nonneg hl.le (Complex.abs.nonneg _)

theorem KM_PER_NM_pos : 0 < KM_PER_NM := by
  unfold KM_PER_NM
  norm_num

theorem cos_DegToRad_pos (lat : ℝ) (h1 : -90 < lat) (h2 : lat < 90) :
    0 < Real.cos (DegToRad lat) := by
  have hp := Real.pi_pos
  apply Real.cos_pos_of_mem_Ioo
  unfold DegToRad M_PI
  constructor <;> nlinarith

/-- With latitudes strictly between -90 and 90 degrees `rhumbline` has the value
`distanceValue`. -/
theorem rhumbline_of_valid (p1lat p1long p2lat p2long : ℝ)
    (h1 : -90 < p1lat) (h1' : p1lat < 90) (h2 : -90 < p2lat) (h2' : p2lat < 90) :
    rhumbline p1lat p1long p2lat p2long = some (distanceValue p1lat p1long p2lat p2long) := by
  unfold rhumbline distanceValue
  rw [trueCourse_of_valid p1lat p1long p2lat p2long h1 h1' h2 h2']
  simp only [Option.bind_eq_bind, Option.some_bind]
  unfold distanceNM
  by_cases hw : inWindow (courseValue p1lat p1long p2lat p2long)
  · rw [if_pos hw, if_pos hw]
    rfl
  · rw [if_neg hw, if_neg hw, fdiv_of_ne _ (cos_courseValue_ne_zero _ _ _ _ hw)]
    rfl

theorem distanceValue_nonneg (p1lat p1long p2lat p2long : ℝ)
    (h1 : -90 < p1lat) (h1' : p1lat < 90) (h2 : -90 < p2lat) (h2' : p2lat < 90) :
    0 ≤ distanceValue p1lat p1long p2lat p2long := by
  unfold distanceValue
  have hk := KM_PER_NM_pos
  split
  · have := cos_DegToRad_pos p1lat h1 h1'
    positivity
  · have := general_quotient_nonneg p1lat p1long p2lat p2long h1 h1' h2 h2'
    positivity

/-! ## Lemmas on `calcCost` -/

theorem wrapInt_range (n : Int) : -2147483648 ≤ wrapInt n ∧ wrapInt n ≤ 2147483647 := by
  unfold wrapInt
  omega

theorem wrapInt_of_range (n : Int) (h1 : -2147483648 ≤ n) (h2 : n ≤ 2147483647) :
    wrapInt n = n := by
  unfold wrapInt
  omega

theorem wrapInt_add (a b : Int) : wrapInt (wrapInt a + b) = wrapInt (a + b) := by
  unfold wrapInt
  omega

theorem toInt_range (x : ℝ) (e : Int) (h : toInt x = some e) :
    e = trunc x ∧ -2147483648 ≤ e ∧ e ≤ 2147483647 := by
  unfold toInt at h
  split at h
  · rename_i hr
    have := Option.some.inj h
    subst this
    exact ⟨rfl, hr.1, hr.2⟩
  · exact absurd h (by simp)

theorem toInt_of_trunc (x : ℝ) (h1 : -2147483648 ≤ trunc x) (h2 : trunc x ≤ 2147483647) :
    toInt x = some (trunc x) := by
  unfold toInt
  rw [if_pos ⟨h1, h2⟩]

theorem trunc_of_nonneg (x : ℝ) (h : 0 ≤ x) : trunc x = ⌊x⌋ := by
  unfold trunc
  rw [if_pos h]

theorem toInt_of_nonneg (x : ℝ) (h0 : 0 ≤ x) (h1 : x < 2147483648) :
    toInt x = some ⌊x⌋ := by
  have hf0 : (0 : Int) ≤ ⌊x⌋ := Int.floor_nonneg.mpr h0
  have hf1 : ⌊x⌋ < (2147483648 : Int) := Int.floor_lt.mpr (by exact_mod_cast h1)
  rw [toInt_of_trunc x (by rw [trunc_of_nonneg x h0]; omega)
    (by rw [trunc_of_nonneg x h0]; omega), trunc_of_nonneg x h0]

theorem edgeCost_range (pts : List Coord) (i j : Int) (e : Int)
    (h : edgeCost pts i j = some e) : -2147483648 ≤ e ∧ e ≤ 2147483647 := by
  simp only [edgeCost, scaledDistance, Option.bind_eq_bind, Option.bind_eq_some] at h
  obtain ⟨a, _, b, _, d, _, hd⟩ := h
  exact (toInt_range _ e hd).2

/-- An edge has a weight when the two indices are valid, the latitudes lie strictly
between -90 and 90 degrees, and ten times every distance is below `2^31`. -/
theorem edgeCost_of_valid (pts : List Coord) (i j : Int)
    (hi : 0 ≤ i ∧ i < pts.length) (hj : 0 ≤ j ∧ j < pts.length)
    (hlat : ∀ p ∈ pts, -90 < p.1 ∧ p.1 < 90)
    (hbound : ∀ a ∈ pts, ∀ b ∈ pts, ∀ d, rhumbline a.1 a.2 b.1 b.2 = some d →
      10 * d < 2147483648) :
    (edgeCost pts i j).isSome = true := by
  have hi' : i.toNat < pts.length := by omega
  have hj' : j.toNat < pts.length := by omega
  have hma := List.getElem_mem hi'
  have hmb := List.getElem_mem hj'
  have ha := hlat _ hma
  have hb := hlat _ hmb
  have hv := rhumbline_of_valid pts[i.toNat].1 pts[i.toNat].2 pts[j.toNat].1 pts[j.toNat].2
    ha.1 ha.2 hb.1 hb.2
  have h0 := distanceValue_nonneg pts[i.toNat].1 pts[i.toNat].2 pts[j.toNat].1 pts[j.toNat].2
    ha.1 ha.2 hb.1 hb.2
  have h1 := hbound _ hma _ hmb _ hv
  simp only [edgeCost, ptAt, hi.1, hj.1, if_true, List.getElem?_eq_getElem hi',
    List.getElem?_eq_getElem hj', Option.bind_eq_bind, Option.some_bind, scaledDistance, hv,
    scaleFactor]
  rw [toInt_of_nonneg _ (by positivity) (by linarith)]
  rfl

theorem calcCostLoop_eq (tour : List Int) (pts : List Coord) :
    ∀ (k i : Nat) (d : Int), i + k + 1 = tour.length →
      -2147483648 ≤ d → d ≤ 2147483647 →
      calcCostLoop tour pts k i d
        = (((tour.drop i).zip (tour.drop (i + 1))).mapM (fun e => edgeCost pts e.1 e.2)).map
            (fun es => wrapInt (d + es.sum)) := by
  intro k
  induction k with
  | zero =>
    intro i d h h1 h2
    have : tour.drop (i + 1) = [] := List.drop_eq_nil_of_le (by omega)
    simp only [calcCostLoop, this, List.zip_nil_right, List.mapM_nil, Option.pure_def,
      Option.map_some', List.sum_nil, add_zero, wrapInt_of_range d h1 h2]
  | succ k ih =>
    intro i d h h1 h2
    have hi : i < tour.length := by omega
    have hi1 : i + 1 < tour.length := by omega
    have hz : (tour.drop i).zip (tour.drop (i + 1))
        = (tour[i], tour[i + 1]) :: (tour.drop (i + 1)).zip (tour.drop (i + 1 + 1)) := by
      rw [← List.zip_cons_cons, ← List.drop_eq_getElem_cons hi, ← List.drop_eq_getElem_cons hi1]
    rw [calcCostLoop, List.getElem?_eq_getElem hi, List.getElem?_eq_getElem hi1, hz]
    simp only [Option.bind_eq_bind, Option.some_bind, List.mapM_cons]
    cases he : edgeCost pts tour[i] tour[i + 1] with
    | none => rfl
    | some e =>
      simp only [Option.some_bind]
      rw [ih (i + 1) (wrapInt (d + e)) (by omega) (wrapInt_range _).1 (wrapInt_range _).2]
      cases hm : List.mapM (fun e => edgeCost pts e.1 e.2)
          ((tour.drop (i + 1)).zip (tour.drop (i + 1 + 1))) with
      | none => rfl
      | some es =>
        simp only [Option.map_some', Option.some_bind, Option.pure_def, List.sum_cons,
          wrapInt_add, add_assoc]

theorem calcCostLoop_isSome (tour : List Int) (pts : List Coord)
    (hidx : ∀ t ∈ tour, 0 ≤ t ∧ t < pts.length) (hlat : ∀ p ∈ pts, -90 < p.1 ∧ p.1 < 90)
    (hbound : ∀ a ∈ pts, ∀ b ∈ pts, ∀ d, rhumbline a.1 a.2 b.1 b.2 = some d →
      10 * d < 2147483648) :
    ∀ (k i : Nat) (d : Int), i + k + 1 = tour.length →
      (calcCostLoop tour pts k i d).isSome = true := by
  intro k
  induction k with
  | zero => intro i d _; simp [calcCostLoop]
  | succ k ih =>
    intro i d h
    have hi : i < tour.length := by omega
    have hi1 : i + 1 < tour.length := by omega
    rw [calcCostLoop, List.getElem?_eq_getElem hi, List.getElem?_eq_getElem hi1]
    simp only [Option.bind_eq_bind, Option.some_bind]
    obtain ⟨e, he⟩ := Option.isSome_iff_exists.mp
      (edgeCost_of_valid pts tour[i] tour[i + 1] (hidx _ (List.getElem_mem hi))
        (hidx _ (List.getElem_mem hi1)) hlat hbound)
    rw [he, Option.some_bind]
    exact ih (i + 1) (wrapInt (d + e)) (by omega)


/-! ## The two directions between `(0, 180)` and `(0.0001, -180)` -/

theorem halfAngle_zero : DegToRad 0 / 2 + M_PI / 4 = Real.pi / 4 := by
  unfold DegToRad M_PI
  ring

theorem tan_quarter_add (e : ℝ) (h0 : 0 < e) (h1 : e < 1 / 1000000) :
    1 < Real.tan (e + Real.pi / 4) ∧ Real.tan (e + Real.pi / 4) < 1 + 1 / 250000 := by
  have hs0 : 0 < Real.sin e := Real.sin_pos_of_pos_of_lt_pi h0 (by linarith [Real.pi_gt_three])
  have hs1 : Real.sin e < e := Real.sin_lt h0
  have hc0 : 1 - e ^ 2 / 2 ≤ Real.cos e := Real.one_sub_sq_div_two_le_cos
  have hc1 : Real.cos e ≤ 1 := Real.cos_le_one e
  have he2 : e ^ 2 ≤ 1 / 1000000 := by nlinarith
  have hr : (0 : ℝ) < √2 / 2 := by positivity
  have hd : 0 < Real.cos e - Real.sin e := by linarith
  have ht : Real.tan (e + Real.pi / 4)
      = (Real.cos e + Real.sin e) / (Real.cos e - Real.sin e) := by
    rw [Real.tan_eq_sin_div_cos, Real.sin_add, Real.cos_add, Real.sin_pi_div_four,
      Real.cos_pi_div_four]
    rw [show Real.sin e * (√2 / 2) + Real.cos e * (√2 / 2)
        = (√2 / 2) * (Real.cos e + Real.sin e) by ring,
      show Real.cos e * (√2 / 2) - Real.sin e * (√2 / 2)
        = (√2 / 2) * (Real.cos e - Real.sin e) by ring,
      mul_div_mul_left _ _ hr.ne']
  rw [ht]
  constructor
  · rw [one_lt_div hd]; linarith
  · rw [div_lt_iff₀ hd]; nlinarith

theorem logRatio_small : 0 < logRatio 0 0.0001 ∧ logRatio 0 0.0001 < 1 / 250000 := by
  refine ⟨logRatio_pos 0 0.0001 (by norm_num) (by norm_num) (by norm_num), ?_⟩
  have hp1 := Real.pi_pos
  have hp2 := Real.pi_lt_d6
  have he : DegToRad 0.0001 / 2 + M_PI / 4 = Real.pi / 3600000 + Real.pi / 4 := by
    unfold DegToRad M_PI
    ring
  obtain ⟨h1, h2⟩ := tan_quarter_add (Real.pi / 3600000) (by positivity)
    (by norm_num at hp2 ⊢; linarith)
  unfold logRatio
  rw [halfAngle_zero, Real.tan_pi_div_four, div_one, he]
  have := Real.log_le_sub_one_of_pos (by linarith : 0 < Real.tan (Real.pi / 3600000 + Real.pi / 4))
  linarith

theorem logRatio_swap (p1lat p2lat : ℝ) : logRatio p2lat p1lat = -logRatio p1lat p2lat := by
  unfold logRatio
  rw [← Real.log_inv, inv_div]

/-- The angle of a point just right of the positive imaginary axis. -/
theorem arg_near_pi_div_two (l : ℝ) (h0 : 0 < l) (h1 : l < 1 / 250000) :
    Real.pi / 2 - 1 / 1000000 < Complex.arg ⟨l, 2 * Real.pi⟩
      ∧ Complex.arg ⟨l, 2 * Real.pi⟩ < Real.pi / 2 := by
  have hp := Real.pi_pos
  have hp3 := Real.pi_gt_three
  have hz : (⟨l, 2 * Real.pi⟩ : ℂ) ≠ 0 := fun h => h0.ne' (congrArg Complex.re h)
  have hupper : Complex.arg ⟨l, 2 * Real.pi⟩ < Real.pi / 2 :=
    (abs_lt.mp (Complex.abs_arg_lt_pi_div_two_iff.mpr (Or.inl h0))).2
  have hnonneg : 0 ≤ Complex.arg ⟨l, 2 * Real.pi⟩ :=
    Complex.arg_nonneg_iff.mpr (by change 0 ≤ 2 * Real.pi; positivity)
  refine ⟨?_, hupper⟩
  have habs : 2 * Real.pi ≤ Complex.abs ⟨l, 2 * Real.pi⟩ := by
    have := Complex.abs_im_le_abs ⟨l, 2 * Real.pi⟩
    rw [abs_of_pos (by change 0 < 2 * Real.pi; positivity)] at this
    exact this
  have hcos : Real.cos (Complex.arg ⟨l, 2 * Real.pi⟩) ≤ l / (2 * Real.pi) := by
    rw [Complex.cos_arg hz]
    exact div_le_div_of_nonneg_left h0.le (by positivity) habs
  have hsin := Real.mul_le_sin
    (by linarith : 0 ≤ Real.pi / 2 - Complex.arg ⟨l, 2 * Real.pi⟩) (by linarith)
  rw [Real.sin_pi_div_two_sub] at hsin
  have h4 : 2 / Real.pi * (Real.pi / 2 - Complex.arg ⟨l, 2 * Real.pi⟩) ≤ l / (2 * Real.pi) :=
    hsin.trans hcos
  have h5 : 2 / Real.pi * (Real.pi / 2 - Complex.arg ⟨l, 2 * Real.pi⟩) * (2 * Real.pi)
      ≤ l / (2 * Real.pi) * (2 * Real.pi) :=
    mul_le_mul_of_nonneg_right h4 (by positivity)
  have h6 : l / (2 * Real.pi) * (2 * Real.pi) = l := by field_simp
  have h7 : 2 / Real.pi * (Real.pi / 2 - Complex.arg ⟨l, 2 * Real.pi⟩) * (2 * Real.pi)
      = 4 * (Real.pi / 2 - Complex.arg ⟨l, 2 * Real.pi⟩) := by
    field_simp
    ring
  rw [h6, h7] at h5
  linarith

theorem courseValue_forward :
    Real.pi / 2 - 1 / 1000000 < courseValue 0 180 0.0001 (-180)
      ∧ courseValue 0 180 0.0001 (-180) < Real.pi / 2 := by
  obtain ⟨h0, h1⟩ := logRatio_small
  obtain ⟨ha, hb⟩ := arg_near_pi_div_two _ h0 h1
  have hd : DegToRad (180 - -180) = 2 * Real.pi := by
    unfold DegToRad M_PI
    ring
  have hp3 := Real.pi_gt_three
  unfold courseValue atan2
  rw [hd, normalize, if_pos (by linarith)]
  exact ⟨ha, hb⟩

theorem courseValue_backward :
    3 * Real.pi / 2 - 1 / 1000000 < courseValue 0.0001 (-180) 0 180
      ∧ courseValue 0.0001 (-180) 0 180 < 3 * Real.pi / 2 := by
  obtain ⟨h0, h1⟩ := logRatio_small
  obtain ⟨ha, hb⟩ := arg_near_pi_div_two _ h0 h1
  have hd : DegToRad (-180 - 180) = -(2 * Real.pi) := by
    unfold DegToRad M_PI
    ring
  have hp := Real.pi_pos
  have hneg : (⟨-logRatio 0 0.0001, -(2 * Real.pi)⟩ : ℂ) = -⟨logRatio 0 0.0001, 2 * Real.pi⟩ := by
    apply Complex.ext <;> simp
  unfold courseValue atan2
  rw [hd, logRatio_swap 0 0.0001, hneg,
    Complex.arg_neg_eq_arg_sub_pi_of_im_pos (by change 0 < 2 * Real.pi; positivity),
    normalize, if_neg (by linarith)]
  constructor <;> linarith

theorem inWindow_forward : inWindow (courseValue 0 180 0.0001 (-180)) := by
  obtain ⟨ha, hb⟩ := courseValue_forward
  have h1 := Real.pi_gt_d6
  have h2 := Real.pi_lt_d6
  left
  constructor <;> norm_num at h1 h2 ⊢ <;> linarith

theorem inWindow_backward : inWindow (courseValue 0.0001 (-180) 0 180) := by
  obtain ⟨ha, hb⟩ := courseValue_backward
  have h1 := Real.pi_gt_d6
  have h2 := Real.pi_lt_d6
  right
  constructor <;> norm_num at h1 h2 ⊢ <;> linarith

theorem scaledDistance_forward : scaledDistance (0, 180) (0.0001, -180) = some 400032 := by
  have hv := rhumbline_of_valid 0 180 0.0001 (-180) (by norm_num) (by norm_num) (by norm_num)
    (by norm_num)
  have hd : DegToRad 0 = 0 := by simp [DegToRad]
  have hval : distanceValue 0 180 0.0001 (-180) * scaleFactor = 400032 := by
    unfold distanceValue
    rw [if_pos inWindow_forward, hd, Real.cos_zero]
    unfold KM_PER_NM scaleFactor
    rw [show (-180 : ℝ) - 180 = -360 by norm_num, abs_neg, abs_of_pos (by norm_num)]
    norm_num
  simp only [scaledDistance, hv, Option.some_bind, hval]
  rw [toInt_of_nonneg _ (by norm_num) (by norm_num)]
  have hfloor : ⌊(400032 : ℝ)⌋ = 400032 := by
    rw [Int.floor_eq_iff]
    norm_num
  rw [hfloor]

theorem scaledDistance_backward : scaledDistance (0.0001, -180) (0, 180) = some 400031 := by
  have hv := rhumbline_of_valid 0.0001 (-180) 0 180 (by norm_num) (by norm_num) (by norm_num)
    (by norm_num)
  have hp := Real.pi_pos
  have hp2 := Real.pi_lt_d6
  have hθ : DegToRad 0.0001 = Real.pi / 1800000 := by
    unfold DegToRad M_PI
    ring
  have hθ0 : 0 < Real.pi / 1800000 := by positivity
  have hθ1 : Real.pi / 1800000 < 1 / 500000 := by norm_num at hp2 ⊢; linarith
  have hc1 : Real.cos (Real.pi / 1800000) < 1 := by
    have := Real.cos_lt_cos_of_nonneg_of_le_pi_div_two (le_refl 0)
      (by linarith : Real.pi / 1800000 ≤ Real.pi / 2) hθ0
    rwa [Real.cos_zero] at this
  have hc0 : 1 - (Real.pi / 1800000) ^ 2 / 2 ≤ Real.cos (Real.pi / 1800000) :=
    Real.one_sub_sq_div_two_le_cos
  have hsq : (Real.pi / 1800000) ^ 2 ≤ 1 / 1000000 := by nlinarith
  have hval : distanceValue 0.0001 (-180) 0 180 * scaleFactor
      = 400032 * Real.cos (Real.pi / 1800000) := by
    unfold distanceValue
    rw [if_pos inWindow_backward, hθ]
    unfold KM_PER_NM scaleFactor
    rw [show (180 : ℝ) - -180 = 360 by norm_num, abs_of_pos (by norm_num)]
    ring
  have hfloor : ⌊400032 * Real.cos (Real.pi / 1800000)⌋ = 400031 := by
    rw [Int.floor_eq_iff]
    constructor
    · push_cast; nlinarith
    · push_cast; nlinarith
  simp only [scaledDistance, hv, Option.some_bind, hval]
  rw [toInt_of_nonneg _ (by nlinarith) (by nlinarith), hfloor]

theorem calcCost_pair (a b : Coord) :
    calcCost [0, 1] [a, b] = (scaledDistance a b).map (fun e => wrapInt (2 * e)) := by
  cases hr : scaledDistance a b with
  | none => simp [calcCost, calcCostLoop, edgeCost, ptAt, hr]
  | some d => simp [calcCost, calcCostLoop, edgeCost, ptAt, hr, two_mul]

/-! ## Lemmas on the readers -/

theorem tokensLoop_append (separator : Char) (t : List Char) (h : separator ∉ t) :
    ∀ (cur rest : List Char),
      tokensLoop separator cur (t ++ rest) = tokensLoop separator (cur ++ t) rest := by
  induction t with
  | nil => intro cur rest; simp
  | cons c t ih =>
    intro cur rest
    have hc : c ≠ separator := fun e => h (e ▸ List.mem_cons_self _ _)
    have ht : separator ∉ t := fun e => h (List.mem_cons_of_mem _ e)
    rw [List.cons_append, tokensLoop, if_neg hc, ih ht]
    simp

theorem tokensLoop_spaced :
    ∀ (ts : List (List Char)), (∀ t ∈ ts, t ≠ [] ∧ ' ' ∉ t) →
      tokensLoop ' ' [] (spaced ts) = ts.map String.mk := by
  intro ts
  induction ts with
  | nil => intro _; simp [spaced, tokensLoop]
  | cons t ts ih =>
    intro h
    obtain ⟨hne, hsp⟩ := h t (List.mem_cons_self _ _)
    cases ts with
    | nil =>
      have := tokensLoop_append ' ' t hsp [] []
      simp only [List.append_nil, List.nil_append] at this
      simp [spaced, this, tokensLoop, hne]
    | cons t' ts' =>
      have := tokensLoop_append ' ' t hsp [] (' ' :: spaced (t' :: ts'))
      simp only [List.nil_append] at this
      have hs : spaced (t :: t' :: ts') = t ++ ' ' :: spaced (t' :: ts') := rfl
      rw [hs, this, tokensLoop, if_pos rfl, ih (fun x hx => h x (List.mem_cons_of_mem _ hx))]
      rfl

theorem isDigit_ne_space {c : Char} (h : c.isDigit = true) : c ≠ ' ' := by
  rintro rfl
  exact absurd h (by decide)

theorem isDigit_not_isSpace {c : Char} (h : c.isDigit = true) : isSpace c = false := by
  have h1 : c.val ≥ 48 := by
    simp only [Char.isDigit, Bool.and_eq_true, decide_eq_true_eq] at h
    exact h.1
  simp only [isSpace, Bool.or_eq_false_iff, decide_eq_false_iff_not]
  refine ⟨⟨⟨⟨⟨?_, ?_⟩, ?_⟩, ?_⟩, ?_⟩, ?_⟩ <;> (rintro rfl; exact absurd h1 (by decide))

theorem Numeral.text_no_space (t : Numeral) (h : t.wellFormed) :
    t.text ≠ [] ∧ ' ' ∉ t.text := by
  obtain ⟨neg, ds⟩ := t
  obtain ⟨hne, hd, _⟩ := h
  constructor
  · simp [Numeral.text]
    exact fun _ => hne
  · simp only [Numeral.text]
    intro hmem
    rcases List.mem_append.mp hmem with h1 | h1
    · cases neg <;> simp at h1
    · exact isDigit_ne_space (hd _ h1) rfl

theorem stoi_numeral (t : Numeral) (h : t.wellFormed) :
    stoi (String.mk t.text) = some t.value := by
  obtain ⟨neg, ds⟩ := t
  obtain ⟨hne, hd, hlo, hhi⟩ := h
  obtain ⟨d, ds', rfl⟩ := List.exists_cons_of_ne_nil hne
  have hdd : d.isDigit = true := hd d (List.mem_cons_self _ _)
  have htw : (d :: ds').takeWhile Char.isDigit = d :: ds' :=
    List.takeWhile_eq_self_iff.mpr hd
  have hm : d ≠ '-' := by rintro rfl; exact absurd hdd (by decide)
  have hp : d ≠ '+' := by rintro rfl; exact absurd hdd (by decide)
  cases neg with
  | true =>
    have hcs : (String.mk (Numeral.text (true, d :: ds'))).toList.dropWhile isSpace
        = '-' :: d :: ds' := by
      simp [Numeral.text, List.dropWhile, isSpace]
    simp only [stoi, hcs, htw]
    simp only [Numeral.value, if_true] at hlo hhi ⊢
    rw [if_neg (List.cons_ne_nil _ _), if_pos ⟨hlo, hhi⟩]
  | false =>
    have hcs : (String.mk (Numeral.text (false, d :: ds'))).toList.dropWhile isSpace
        = d :: ds' := by
      simp [Numeral.text, List.dropWhile, isDigit_not_isSpace hdd]
    simp only [stoi, hcs]
    have hmatch : (match d :: ds' with
        | '-' :: rest => (true, rest)
        | '+' :: rest => (false, rest)
        | rest => (false, rest)) = (false, d :: ds') := by
      split
      · rename_i heq; exact absurd (List.cons.inj heq).1 hm
      · rename_i heq; exact absurd (List.cons.inj heq).1 hp
      · rfl
    rw [hmatch]
    simp only [htw]
    simp only [Numeral.value, Bool.false_eq_true, if_false] at hlo hhi ⊢
    rw [if_neg (List.cons_ne_nil _ _), if_pos ⟨hlo, hhi⟩]

theorem tokens_numeralRow (r : List Numeral) (h : ∀ t ∈ r, t.wellFormed) :
    tokens ' ' (numeralRow r) = r.map (fun t => String.mk t.text) := by
  have := tokensLoop_spaced (r.map Numeral.text) (by
    intro x hx
    obtain ⟨t, ht, rfl⟩ := List.mem_map.mp hx
    exact Numeral.text_no_space t (h t ht))
  simp only [tokens, numeralRow, String.toList]
  rw [this, List.map_map]
  rfl

theorem lastIndex_numerals :
    ∀ (r : List Numeral) (i : Option Int), (∀ t ∈ r, t.wellFormed) →
      lastIndex (r.map (fun t => String.mk t.text)) i
        = some (match r.getLast? with
            | some t => some t.value
            | none => i) := by
  intro r
  induction r with
  | nil => intro i _; rfl
  | cons t r ih =>
    intro i h
    rw [List.map_cons, lastIndex, stoi_numeral t (h t (List.mem_cons_self _ _))]
    simp only
    rw [ih (some t.value) (fun x hx => h x (List.mem_cons_of_mem _ hx))]
    cases r with
    | nil => rfl
    | cons t' r' =>
      rw [List.getLast?_cons_cons]
      cases hl : (t' :: r').getLast? with
      | none => exact absurd (List.getLast?_eq_none_iff.mp hl) (List.cons_ne_nil _ _)
      | some x => rfl

theorem readCycleRows_numerals :
    ∀ (rows : List (List Numeral)) (tour : List (Option Int)) (n : Nat),
      (∀ r ∈ rows, r ≠ [] ∧ ∀ t ∈ r, t.wellFormed) →
      readCycleRows (rows.map numeralRow) tour n
        = some (tour ++ rows.map (fun r => some (lastValue r)), n + rows.length) := by
  intro rows
  induction rows with
  | nil => intro tour n _; simp [readCycleRows]
  | cons r rows ih =>
    intro tour n h
    obtain ⟨hne, hwf⟩ := h r (List.mem_cons_self _ _)
    obtain ⟨t, ht⟩ : ∃ t, r.getLast? = some t := by
      cases hl : r.getLast? with
      | none => exact absurd (List.getLast?_eq_none_iff.mp hl) hne
      | some t => exact ⟨t, rfl⟩
    rw [List.map_cons, readCycleRows, tokens_numeralRow r hwf, lastIndex_numerals r none hwf, ht]
    simp only
    rw [ih (tour ++ [some t.value]) (n + 1) (fun x hx => h x (List.mem_cons_of_mem _ hx))]
    simp [lastValue, ht]
    omega

theorem nodeLinesLoop_eq (showDouble : ℝ → String) (pts : List Coord) :
    ∀ (k i : Nat), i + k ≤ pts.length →
      nodeLinesLoop showDouble pts k i
        = some ((((pts.drop i).take k).enumFrom i).map (fun p =>
            toString (p.1 + 1) ++ " " ++ showDouble p.2.2 ++ " " ++ showDouble p.2.1)) := by
  intro k
  induction k with
  | zero => intro i _; simp [nodeLinesLoop]
  | succ k ih =>
    intro i h
    have hi : i < pts.length := by omega
    rw [nodeLinesLoop, List.getElem?_eq_getElem hi, ih (i + 1) (by omega),
      List.drop_eq_getElem_cons hi]
    rfl

theorem fillRow_none (stod : String → Option ℝ) :
    ∀ (toks : List String) (i : Nat) (dRow : RawRow),
      (∃ value ∈ toks.take (2 - i), stod value = none) → fillRow stod toks i dRow = none := by
  intro toks
  induction toks with
  | nil => intro i dRow h; simp at h
  | cons value rest ih =>
    intro i dRow h
    rw [fillRow]
    cases hv : stod value with
    | none => rfl
    | some x =>
      simp only
      obtain ⟨w, hw, hwn⟩ := h
      by_cases h0 : i = 0
      · subst h0
        rw [if_pos rfl]
        apply ih
        simp only [Nat.sub_zero, List.take_succ_cons, List.mem_cons] at hw
        rcases hw with rfl | hw
        · rw [hv] at hwn; exact absurd hwn (by simp)
        · exact ⟨w, by simpa using hw, hwn⟩
      · rw [if_neg h0]
        by_cases h1 : i = 1
        · subst h1
          rw [if_pos rfl]
          simp only [Nat.reduceSub, List.take_succ_cons, List.take_zero, List.mem_singleton] at hw
          subst hw
          rw [hv] at hwn
          exact absurd hwn (by simp)
        · rw [if_neg h1]

theorem fillRow_some (stod : String → Option ℝ) :
    ∀ (toks : List String) (i : Nat) (dRow : RawRow),
      toks.length + i ≤ 2 → (∀ value ∈ toks, stod value ≠ none) →
      ∃ d, fillRow stod toks i dRow = some d := by
  intro toks
  induction toks with
  | nil => intro i dRow _ _; exact ⟨dRow, rfl⟩
  | cons value rest ih =>
    intro i dRow hlen h
    simp only [List.length_cons] at hlen
    obtain ⟨x, hx⟩ := Option.ne_none_iff_exists'.mp (h value (List.mem_cons_self _ _))
    rw [fillRow, hx]
    simp only
    by_cases h0 : i = 0
    · rw [if_pos h0]
      exact ih _ _ (by omega) (fun v hv => h v (List.mem_cons_of_mem _ hv))
    · rw [if_neg h0, if_pos (by omega : i = 1)]
      exact ih _ _ (by omega) (fun v hv => h v (List.mem_cons_of_mem _ hv))

theorem readCSVRows_none (stod : String → Option ℝ) :
    ∀ (rows : List String) (table : List RawRow) (n : Nat),
      (∃ sRow ∈ rows, ∃ value ∈ (tokens ',' sRow).take 2, stod value = none) →
      readCSVRows stod rows table n = none := by
  intro rows
  induction rows with
  | nil => intro table n h; simp at h
  | cons sRow rows ih =>
    intro table n h
    rw [readCSVRows]
    cases hf : fillRow stod (tokens ',' sRow) 0 (none, none) with
    | none => rfl
    | some dRow =>
      simp only
      apply ih
      obtain ⟨r, hr, hbad⟩ := h
      rcases List.mem_cons.mp hr with rfl | hr
      · rw [fillRow_none stod _ 0 _ (by simpa using hbad)] at hf
        exact absurd hf (by simp)
      · exact ⟨r, hr, hbad⟩

theorem readCSVRows_some (stod : String → Option ℝ) :
    ∀ (rows : List String) (table : List RawRow) (n : Nat),
      (∀ sRow ∈ rows, (tokens ',' sRow).length ≤ 2 ∧ ∀ value ∈ tokens ',' sRow, stod value ≠ none) →
      ∃ new, readCSVRows stod rows table n = some (table ++ new, n + rows.length)
        ∧ new.length = rows.length := by
  intro rows
  induction rows with
  | nil => intro table n _; exact ⟨[], by simp [readCSVRows], rfl⟩
  | cons sRow rows ih =>
    intro table n h
    obtain ⟨hlen, hnum⟩ := h sRow (List.mem_cons_self _ _)
    obtain ⟨d, hd⟩ := fillRow_some stod (tokens ',' sRow) 0 (none, none) (by omega) hnum
    obtain ⟨new, hnew, hl⟩ := ih (table ++ [d]) (n + 1)
      (fun r hr => h r (List.mem_cons_of_mem _ hr))
    refine ⟨d :: new, ?_, by simp [hl]⟩
    rw [readCSVRows, hd]
    simp only
    rw [hnew]
    simp
    omega

theorem findLastOfLoop_append (chars : List Char) :
    ∀ (l1 l2 : List Char) (i : Nat) (r : Option Nat),
      findLastOfLoop chars (l1 ++ l2) i r
        = findLastOfLoop chars l2 (i + l1.length) (findLastOfLoop chars l1 i r) := by
  intro l1
  induction l1 with
  | nil => intro l2 i r; simp [findLastOfLoop]
  | cons c l1 ih =>
    intro l2 i r
    rw [List.cons_append, findLastOfLoop, ih, findLastOfLoop]
    simp only [List.length_cons]
    congr 1
    omega

/-- The name `writeTSPFile` derives is `removeExt(fn)` itself: the last of the
characters `\`, `/`, `.` in `out` is the dot of the `.tsp` just appended. -/
theorem tspName_eq (stem : String) : tspName stem = stem := by
  have hout : (stem ++ ".tsp").toList = stem.toList ++ ['.', 't', 's', 'p'] := by
    simp [String.toList]
  have hfind : find_last_of (stem ++ ".tsp") ['\\', '/', '.'] = some stem.toList.length := by
    rw [find_last_of, hout, findLastOfLoop_append]
    simp [findLastOfLoop]
  have hdot : (stem ++ ".tsp").toList[stem.toList.length]? = some '.' := by
    rw [hout, List.getElem?_append_right (Nat.le_refl _)]
    simp
  have hsub : substr0 (stem ++ ".tsp") stem.toList.length = stem := by
    rw [substr0, hout, List.take_left]
    rfl
  simp only [tspName, hfind, hdot, if_true, hsub]

/-! ## Lemmas on `Mod` and on the true course -/

theorem Mod_nonneg_value (y x : ℝ) (hx : 0 < x) (hy : 0 ≤ y) :
    Mod y x = some (y - x * (⌊y / x⌋ : ℝ)) := by
  have hy' : y ≥ 0 := hy
  rw [Mod, if_pos hy', fdiv_of_ne _ hx.ne']
  rfl

theorem Mod_neg_value (y x : ℝ) (hx : 0 < x) (hy : y < 0) :
    Mod y x = some (y + x * ((⌊-(y / x)⌋ : ℝ) + 1)) := by
  have hy' : ¬ y ≥ 0 := not_le.mpr hy
  rw [Mod, if_neg hy', fdiv_of_ne _ hx.ne']
  rfl

theorem normalize_range (y : ℝ) (h1 : -Real.pi < y) (h2 : y ≤ Real.pi) :
    0 ≤ normalize y ∧ normalize y < 2 * Real.pi := by
  have hp := Real.pi_pos
  unfold normalize
  split
  · constructor <;> linarith
  · constructor <;> linarith

/-- Whenever the true course has a value, the value is the normalized angle that
`atan2` returned. -/
theorem trueCourse_some (p1lat p1long p2lat p2long tc : ℝ)
    (h : trueCourse p1lat p1long p2lat p2long = some tc) :
    ∃ y, -Real.pi < y ∧ y ≤ Real.pi ∧ tc = normalize y := by
  unfold trueCourse at h
  simp only [Option.bind_eq_bind, Option.bind_eq_some] at h
  obtain ⟨t2, _, t1, _, q, _, l, _, hm⟩ := h
  have hlo : -Real.pi < atan2 (DegToRad (p1long - p2long)) l := Complex.neg_pi_lt_arg _
  have hhi : atan2 (DegToRad (p1long - p2long)) l ≤ Real.pi := Complex.arg_le_pi _
  rw [Mod_of_angle_normalize _ hlo hhi] at hm
  exact ⟨_, hlo, hhi, (Option.some.inj hm).symm⟩

theorem courseValue_same_point (lat lon : ℝ) (h1 : -90 < lat) (h2 : lat < 90) :
    courseValue lat lon lat lon = 0 := by
  obtain ⟨_, ht⟩ := tan_halfAngle lat h1 h2
  have hz : (⟨0, 0⟩ : ℂ) = 0 := rfl
  simp [courseValue, logRatio_self lat ht.ne', atan2, DegToRad, hz, normalize]

theorem trueCourse_same_point (lat lon : ℝ) (h1 : -90 < lat) (h2 : lat < 90) :
    trueCourse lat lon lat lon = some 0 := by
  rw [trueCourse_of_valid lat lon lat lon h1 h2 h1 h2, courseValue_same_point lat lon h1 h2]

theorem not_inWindow_zero : ¬ inWindow 0 := by
  unfold inWindow
  norm_num

theorem DegToRad_pos {d : ℝ} (h : 0 < d) : 0 < DegToRad d := by
  unfold DegToRad M_PI
  have := Real.pi_pos
  positivity

theorem DegToRad_neg {d : ℝ} (h : d < 0) : DegToRad d < 0 := by
  unfold DegToRad M_PI
  have := Real.pi_pos
  have : d / 180 < 0 := by linarith
  nlinarith

/-- Between two coordinates of the same latitude and different longitudes the
true course is `π / 2` or `3π / 2`. -/
theorem courseValue_same_latitude (lat lon1 lon2 : ℝ) (h1 : -90 < lat) (h2 : lat < 90)
    (hne : lon1 ≠ lon2) :
    courseValue lat lon1 lat lon2 = Real.pi / 2
      ∨ courseValue lat lon1 lat lon2 = 3 * Real.pi / 2 := by
  obtain ⟨_, ht⟩ := tan_halfAngle lat h1 h2
  have hp := Real.pi_pos
  unfold courseValue atan2
  rw [logRatio_self lat ht.ne']
  rcases lt_or_gt_of_ne hne with h | h
  · right
    have hd : DegToRad (lon1 - lon2) < 0 := DegToRad_neg (by linarith)
    have ha : Complex.arg ⟨0, DegToRad (lon1 - lon2)⟩ = -(Real.pi / 2) :=
      Complex.arg_eq_neg_pi_div_two_iff.mpr ⟨rfl, hd⟩
    rw [ha, normalize, if_neg (by linarith)]
    ring
  · left
    have hd : 0 < DegToRad (lon1 - lon2) := DegToRad_pos (by linarith)
    have ha : Complex.arg ⟨0, DegToRad (lon1 - lon2)⟩ = Real.pi / 2 :=
      Complex.arg_eq_pi_div_two_iff.mpr ⟨rfl, hd⟩
    rw [ha, normalize, if_pos (by linarith)]

theorem inWindow_same_latitude (lat lon1 lon2 : ℝ) (h1 : -90 < lat) (h2 : lat < 90)
    (hne : lon1 ≠ lon2) : inWindow (courseValue lat lon1 lat lon2) := by
  rcases courseValue_same_latitude lat lon1 lon2 h1 h2 hne with h | h
  · rw [h]; exact pi_div_two_inWindow
  · rw [h]; exact three_pi_div_two_inWindow

theorem cos_small_lt_one : Real.cos (Real.pi / 1800000) < 1 := by
  have hp := Real.pi_pos
  have := Real.cos_lt_cos_of_nonneg_of_le_pi_div_two (le_refl 0)
    (by linarith : Real.pi / 1800000 ≤ Real.pi / 2) (by positivity)
  rwa [Real.cos_zero] at this

theorem distanceValue_forward : distanceValue 0 180 0.0001 (-180) = 21600 * KM_PER_NM := by
  have hd : DegToRad 0 = 0 := by simp [DegToRad]
  unfold distanceValue
  rw [if_pos inWindow_forward, hd, Real.cos_zero,
    show (-180 : ℝ) - 180 = -360 by norm_num, abs_neg, abs_of_pos (by norm_num)]
  norm_num

theorem distanceValue_backward :
    distanceValue 0.0001 (-180) 0 180 = 21600 * Real.cos (Real.pi / 1800000) * KM_PER_NM := by
  have hθ : DegToRad 0.0001 = Real.pi / 1800000 := by
    unfold DegToRad M_PI
    ring
  unfold distanceValue
  rw [if_pos inWindow_backward, hθ, show (180 : ℝ) - -180 = 360 by norm_num,
    abs_of_pos (by norm_num)]
  ring

/-! ## Lemmas on the element accesses of `calcCost` -/

theorem edgeCostE_toOption (pts : List Coord) (i j : Int) :
    (edgeCostE pts i j).toOption = edgeCost pts i j := by
  unfold edgeCostE edgeCost ptAtE scaledDistance
  cases ptAt pts i with
  | none => rfl
  | some a =>
    cases ptAt pts j with
    | none => rfl
    | some b =>
      cases h : rhumbline a.1 a.2 b.1 b.2 with
      | none => simp [h, bind, Except.bind, Except.toOption]
      | some d =>
        cases h' : toInt (d * scaleFactor) with
        | none => simp [h, h', bind, Except.bind, Except.toOption]
        | some e => simp [h, h', bind, Except.bind, Except.toOption]

theorem calcCostLoopE_toOption (tour : List Int) (pts : List Coord) :
    ∀ (k i : Nat) (d : Int),
      (calcCostLoopE tour pts k i d).toOption = calcCostLoop tour pts k i d := by
  intro k
  induction k with
  | zero => intro i d; rfl
  | succ k ih =>
    intro i d
    rw [calcCostLoopE, calcCostLoop]
    unfold tourAtE
    cases tour[i]? with
    | none => rfl
    | some a =>
      cases tour[i + 1]? with
      | none => rfl
      | some b =>
        show (edgeCostE pts a b
              >>= fun e => calcCostLoopE tour pts k (i + 1) (wrapInt (d + e))).toOption
          = (edgeCost pts a b >>= fun e => calcCostLoop tour pts k (i + 1) (wrapInt (d + e)))
        rw [← edgeCostE_toOption]
        cases edgeCostE pts a b with
        | error f => rfl
        | ok e => exact ih (i + 1) (wrapInt (d + e))

theorem calcCostE_toOption (tour : List Int) (pts : List Coord) :
    (calcCostE tour pts).toOption = calcCost tour pts := by
  unfold calcCostE calcCost tourAtE
  cases tour[0]? with
  | none => rfl
  | some first =>
    cases tour[tour.length - 1]? with
    | none => rfl
    | some last =>
      show (edgeCostE pts first last
            >>= fun d => calcCostLoopE tour pts (tour.length - 1) 0 d).toOption
        = (edgeCost pts first last >>= fun d => calcCostLoop tour pts (tour.length - 1) 0 d)
      rw [← edgeCostE_toOption]
      cases edgeCostE pts first last with
      | error f => rfl
      | ok e => exact calcCostLoopE_toOption tour pts _ 0 e

theorem ptAtE_of_valid (pts : List Coord) (i : Int) (h : 0 ≤ i ∧ i < pts.length) :
    ∃ p, ptAtE pts i = Except.ok p := by
  have hi : i.toNat < pts.length := by omega
  exact ⟨pts[i.toNat], by simp [ptAtE, ptAt, h.1, List.getElem?_eq_getElem hi]⟩

theorem edgeCostE_ne_outOfRange (pts : List Coord) (i j : Int)
    (hi : 0 ≤ i ∧ i < pts.length) (hj : 0 ≤ j ∧ j < pts.length) :
    (∃ f, f ≠ Fault.outOfRange ∧ edgeCostE pts i j = Except.error f)
      ∨ ∃ e, edgeCostE pts i j = Except.ok e := by
  obtain ⟨a, ha⟩ := ptAtE_of_valid pts i hi
  obtain ⟨b, hb⟩ := ptAtE_of_valid pts j hj
  unfold edgeCostE
  rw [ha, hb]
  cases h : rhumbline a.1 a.2 b.1 b.2 with
  | none => left; exact ⟨Fault.noValue, by decide, by simp [h, bind, Except.bind]⟩
  | some d =>
    cases h' : toInt (d * scaleFactor) with
    | none => left; exact ⟨Fault.notAnInt, by decide, by simp [h, h', bind, Except.bind]⟩
    | some e => right; exact ⟨e, by simp [h, h', bind, Except.bind]⟩

theorem calcCostLoopE_ne_outOfRange (tour : List Int) (pts : List Coord)
    (hidx : ∀ t ∈ tour, 0 ≤ t ∧ t < pts.length) :
    ∀ (k i : Nat) (d : Int), i + k + 1 = tour.length →
      calcCostLoopE tour pts k i d ≠ Except.error Fault.outOfRange := by
  intro k
  induction k with
  | zero => intro i d _; simp [calcCostLoopE]
  | succ k ih =>
    intro i d h
    have hi : i < tour.length := by omega
    have hi1 : i + 1 < tour.length := by omega
    rw [calcCostLoopE]
    simp only [tourAtE, List.getElem?_eq_getElem hi, List.getElem?_eq_getElem hi1]
    rcases edgeCostE_ne_outOfRange pts tour[i] tour[i + 1] (hidx _ (List.getElem_mem hi))
      (hidx _ (List.getElem_mem hi1)) with ⟨f, hf, he⟩ | ⟨e, he⟩
    · simp only [he, bind, Except.bind]
      intro h0
      exact hf (Except.error.inj h0)
    · simp only [he, bind, Except.bind]
      exact ih (i + 1) (wrapInt (d + e)) (by omega)

theorem calcCostE_ne_outOfRange (tour : List Int) (pts : List Coord) (hne : tour ≠ [])
    (hidx : ∀ t ∈ tour, 0 ≤ t ∧ t < pts.length) :
    calcCostE tour pts ≠ Except.error Fault.outOfRange := by
  have hlen : 0 < tour.length := List.length_pos.mpr hne
  have h0 : 0 < tour.length := hlen
  have hl : tour.length - 1 < tour.length := by omega
  unfold calcCostE
  simp only [tourAtE, List.getElem?_eq_getElem h0, List.getElem?_eq_getElem hl]
  rcases edgeCostE_ne_outOfRange pts tour[0] tour[tour.length - 1]
    (hidx _ (List.getElem_mem h0)) (hidx _ (List.getElem_mem hl)) with ⟨f, hf, he⟩ | ⟨e, he⟩
  · simp only [he, bind, Except.bind]
    intro h0
    exact hf (Except.error.inj h0)
  · simp only [he, bind, Except.bind]
    exact calcCostLoopE_ne_outOfRange tour pts hidx (tour.length - 1) 0 e (by omega)

theorem keepFirst_length_le (eq : α → α → Bool) :
    ∀ (xs kept : List α), kept.length ≤ (keepFirst eq kept xs).length := by
  intro xs
  induction xs with
  | nil => intro kept; simp [keepFirst]
  | cons x xs ih =>
    intro kept
    rw [keepFirst]
    split
    · have := ih (kept ++ [x])
      simp only [List.length_append, List.length_singleton] at this
      omega
    · exact ih kept

theorem dedup_ne_nil (eq : α → α → Bool) (v : List α) (h : v ≠ []) : dedup eq v ≠ [] := by
  obtain ⟨x, xs, rfl⟩ := List.exists_cons_of_ne_nil h
  rw [dedup_eq_keepFirst, keepFirst]
  simp only [List.all_nil, if_true, List.nil_append]
  have := keepFirst_length_le eq xs [x]
  intro h0
  rw [h0] at this
  simp at this

theorem reachesCalcCost_tour (env : Env) (argv : List String) (h : reachesCalcCost env argv) :
    env.cycleEntries (argv.getD 1 "") ≠ []
      ∧ (env.cycleEntries (argv.getD 1 "")).length
          = (dedup coordEq (env.csvRows (argv.getD 1 ""))).length := by
  obtain ⟨_, hn, _, heq⟩ := h
  refine ⟨?_, heq⟩
  have hv : env.csvRows (argv.getD 1 "") ≠ [] := by
    intro h0
    rw [h0] at hn
    simp [MIN_COORDINATES] at hn
  have hd := dedup_ne_nil coordEq _ hv
  intro h0
  rw [h0] at heq
  exact hd (List.length_eq_zero.mp heq.symm)

theorem main_costEvaluated (env : Env) (argv : List String) (effs : List Effect)
    (code : ExitCode) (tour : List Int) (pts : List Coord) (cost : Int)
    (hrun : main env argv = some (effs, code))
    (hmem : Effect.costEvaluated tour pts cost ∈ effs) :
    reachesCalcCost env argv
      ∧ tour = env.cycleEntries (argv.getD 1 "")
      ∧ pts = dedup coordEq (env.csvRows (argv.getD 1 ""))
      ∧ calcCost tour pts = some cost := by
  unfold main at hrun
  have hrem : ∀ n m : Nat, Effect.costEvaluated tour pts cost ∉ removedReport n m := by
    intro n m
    unfold removedReport
    split <;> simp
  split at hrun
  · simp only [Option.some.injEq, Prod.mk.injEq] at hrun
    rw [← hrun.1] at hmem
    simp at hmem
  · rename_i h2
    simp only at hrun
    split at hrun
    · simp only [Option.some.injEq, Prod.mk.injEq] at hrun
      rw [← hrun.1] at hmem
      simp at hmem
    · rename_i hn
      split at hrun
      · rename_i hmode
        simp only [Option.map_eq_some', Prod.mk.injEq] at hrun
        obtain ⟨r, _, hr, _⟩ := hrun
        rw [← hr] at hmem
        simp [hrem] at hmem
      · rename_i hmode
        split at hrun
        · simp only [Option.some.injEq, Prod.mk.injEq] at hrun
          rw [← hrun.1] at hmem
          simp [hrem] at hmem
        · rename_i heq
          simp only [Option.map_eq_some', Prod.mk.injEq] at hrun
          obtain ⟨c, hc, hr, _⟩ := hrun
          rw [← hr] at hmem
          simp only [List.mem_append, List.mem_cons, Effect.costEvaluated.injEq,
            List.mem_singleton, reduceCtorEq, or_false, false_or, List.not_mem_nil] at hmem
          rcases hmem with hmem | ⟨rfl, rfl, rfl⟩
          · exact absurd hmem (hrem _ _)
          · refine ⟨⟨by omega, by omega, by simpa using hmode, by simpa using heq⟩, rfl, rfl, hc⟩

/-! ## A distance whose double does not fit in an `int` -/

theorem edgeCost_pair (a b : Coord) : edgeCost [a, b] 0 1 = scaledDistance a b := by
  simp [edgeCost, ptAt]

/-! # Theorems -/

/-- C1: with a transitive comparison `eq` (as `==` on doubles is), deduplication
returns exactly the input elements at the positions `i` such that no element at a
position before `i` compares equal to the element at `i`, in their input order. -/
theorem dedup_first_occurrences (eq : α → α → Bool)
    (htrans : ∀ a b c, eq a b = true → eq b c = true → eq a c = true) (v : List α) :
    dedup eq v
      = (v.enum.filter (fun p => (v.take p.1).all (fun y => !eq y p.2))).map Prod.snd := by
  rw [dedup_eq_keepFirst, keepFirst_eq_firstOccFrom eq htrans v [] [] (fun _ => rfl),
    ← enumFrom_filter_eq_firstOccFrom eq v []]
  simp [List.enum]

theorem dedup_first_occurrences_witness :
    dedup nanEq [some 7, none, some 7, some 3, none, some 3, some 5]
      = [some 7, none, some 3, none, some 5] :=
  (dedup_first_occurrences nanEq nanEq_trans _).trans (by decide)

/-- C2: with a symmetric comparison `eq` (as `==` on doubles is), no two elements
at different positions of the deduplicated sequence compare equal. -/
theorem dedup_no_duplicates (eq : α → α → Bool)
    (hsymm : ∀ a b, eq a b = true → eq b a = true) (v : List α) (i j : Nat) (x y : α)
    (hij : i ≠ j) (hx : (dedup eq v)[i]? = some x) (hy : (dedup eq v)[j]? = some y) :
    eq x y = false := by
  have hp : (dedup eq v).Pairwise (fun a b => eq a b = false) := by
    rw [dedup_eq_keepFirst]
    exact keepFirst_pairwise eq v [] List.Pairwise.nil
  rw [List.pairwise_iff_getElem] at hp
  obtain ⟨hi, rfl⟩ := List.getElem?_eq_some.mp hx
  obtain ⟨hj, rfl⟩ := List.getElem?_eq_some.mp hy
  rcases Nat.lt_or_gt_of_ne hij with h | h
  · exact hp i j hi hj h
  · have := hp j i hj hi h
    cases hxy : eq (dedup eq v)[i] (dedup eq v)[j] with
    | false => rfl
    | true => rw [hsymm _ _ hxy] at this; exact absurd this (by simp)

theorem dedup_no_duplicates_witness :
    (dedup nanEq [some 7, some 7, some 3])[1]? = some (some 3)
      ∧ (dedup nanEq [some 7, some 7, some 3])[0]? = some (some 7)
      ∧ nanEq (some 3) (some 7) = false :=
  ⟨by decide, by decide,
    dedup_no_duplicates nanEq nanEq_symm [some 7, some 7, some 3] 1 0 (some 3) (some 7)
      (by decide) (by decide) (by decide)⟩

/-- C3: deduplication is idempotent, and a second run removes no element: the
count the driver would report for it, size before minus size after, is zero. -/
theorem dedup_idempotent (eq : α → α → Bool) (v : List α) :
    dedup eq (dedup eq v) = dedup eq v
      ∧ (dedup eq v).length - (dedup eq (dedup eq v)).length = 0 := by
  have h : dedup eq (dedup eq v) = dedup eq v := by
    rw [dedup_eq_keepFirst eq (dedup eq v)]
    have hp : (dedup eq v).Pairwise (fun a b => eq a b = false) := by
      rw [dedup_eq_keepFirst]
      exact keepFirst_pairwise eq v [] List.Pairwise.nil
    simpa using keepFirst_of_pairwise eq (dedup eq v) [] (by simpa using hp)
  exact ⟨h, by rw [h]; simp⟩

/-- C4: with a transitive comparison, the size after deduplication is at most the
input size `n`, and `n` minus that size, the count the driver reports, is the
number of input positions whose element compares equal to an element at an
earlier position. For the five records `(40,-75), (40,-75), (41,-76), (42,-77),
(43,-78)` deduplication leaves 4 coordinates, and a run with `-o` reports 1
duplicate removed and writes a tour-input file whose fourth line is
`DIMENSION: 4`. -/
theorem dedup_removed_count (eq : α → α → Bool)
    (htrans : ∀ a b c, eq a b = true → eq b c = true → eq a c = true) (v : List α) :
    (dedup eq v).length ≤ v.length
      ∧ v.length - (dedup eq v).length
          = (v.enum.filter (fun p => (v.take p.1).any (fun y => eq y p.2))).length
      ∧ (∀ (env : Env) (fn : String),
          env.csvRows fn
              = [(40.0, -75.0), (40.0, -75.0), (41.0, -76.0), (42.0, -77.0), (43.0, -78.0)] →
            env.tspOpens fn = true →
          dedup coordEq (env.csvRows fn)
              = [(40.0, -75.0), (41.0, -76.0), (42.0, -77.0), (43.0, -78.0)]
            ∧ ∃ lines, main env ["CtoK", fn, "-o"]
                = some ([Effect.duplicatesRemoved 1, Effect.numberOfCoordinates 4,
                    Effect.tspFile (some lines)], ExitCode.EXIT_SUCCESS)
              ∧ lines[3]? = some "DIMENSION: 4") := by
  have hlen : (dedup eq v).length
      + (v.enum.filter (fun p => (v.take p.1).any (fun y => eq y p.2))).length = v.length := by
    rw [dedup_first_occurrences eq htrans v, List.length_map]
    have := length_filter_add (fun p : Nat × α => (v.take p.1).all (fun y => !eq y p.2)) v.enum
    rw [List.enum_length] at this
    rw [← this]
    congr 3
    funext p
    simp [List.all_eq_not_any_not]
  refine ⟨by omega, by omega, ?_⟩
  intro env fn h ho
  have hd : dedup coordEq
      [((40.0 : ℝ), (-75.0 : ℝ)), (40.0, -75.0), (41.0, -76.0), (42.0, -77.0), (43.0, -78.0)]
        = [(40.0, -75.0), (41.0, -76.0), (42.0, -77.0), (43.0, -78.0)] := by
    rw [dedup_eq_keepFirst]
    norm_num [keepFirst, coordEq]
  rw [h]
  refine ⟨hd, ?_⟩
  simp [main, h, hd, ho, parseCommandline, MIN_COORDINATES, writeTSPFile, tspLines, nodeLines,
    nodeLinesLoop, removedReport]
  decide

theorem dedup_removed_count_witness :
    (dedup nanEq [some 7, none, some 7, some 3, none, some 3, some 5]).length ≤ 7
      ∧ 7 - (dedup nanEq [some 7, none, some 7, some 3, none, some 3, some 5]).length = 2 :=
  ⟨(dedup_removed_count nanEq nanEq_trans
      [some 7, none, some 7, some 3, none, some 3, some 5]).1,
    (dedup_removed_count nanEq nanEq_trans
      [some 7, none, some 7, some 3, none, some 3, some 5]).2.1.trans (by decide)⟩

/-- C5, amended: when fewer than `MIN_COORDINATES` (4) records were read from the
input, before any deduplication, the run reports the count and exits with
failure, and nothing else happens: no output is attempted. -/
theorem main_insufficient (env : Env) (argv : List String) (h2 : 2 ≤ argv.length)
    (hn : (env.csvRows (argv.getD 1 "")).length < MIN_COORDINATES) :
    main env argv
      = some ([Effect.insufficient (env.csvRows (argv.getD 1 "")).length],
          ExitCode.EXIT_FAILURE) := by
  have h2' : ¬ argv.length < 2 := by omega
  simp only [main, h2', if_false, hn, if_true]

theorem main_insufficient_witness :
    main (scenarioEnv [(40, -75), (41, -76), (42, -77)] []) ["CtoK", "data"]
      = some ([Effect.insufficient 3], ExitCode.EXIT_FAILURE) :=
  main_insufficient (scenarioEnv [(40, -75), (41, -76), (42, -77)] []) ["CtoK", "data"]
    (by decide) (by decide)

/-- C5, counterexample: the four records `(40,-75), (40,-75), (41,-76), (42,-77)`
leave 3 coordinates after deduplication, and the run with `-o` writes the
tour-input file and exits with success. -/
theorem main_below_minimum_after_dedup :
    (dedup coordEq [(40, -75), (40, -75), (41, -76), (42, -77)]).length = 3
      ∧ main (scenarioEnv [(40, -75), (40, -75), (41, -76), (42, -77)] []) ["CtoK", "data", "-o"]
        = some ([Effect.duplicatesRemoved 1, Effect.numberOfCoordinates 3,
              Effect.tspFile (some ["NAME: data3", "TYPE: TSP",
                "COMMENT: Generated by CtoK writeTSPFile", "DIMENSION: 3",
                "EDGE_WEIGHT_TYPE: EUC_2D", "NODE_COORD_SECTION", "1 # #", "2 # #", "3 # #"])],
            ExitCode.EXIT_SUCCESS) := by
  have hd : dedup coordEq [((40 : ℝ), (-75 : ℝ)), (40, -75), (41, -76), (42, -77)]
        = [(40, -75), (41, -76), (42, -77)] := by
    rw [dedup_eq_keepFirst]
    norm_num [keepFirst, coordEq]
  refine ⟨by rw [hd]; rfl, ?_⟩
  simp [main, scenarioEnv, hd, parseCommandline, MIN_COORDINATES, writeTSPFile, tspLines,
    nodeLines, nodeLinesLoop, removedReport]
  decide

/-- C6, counterexample: over the coordinates a = (0, 180) and b = (0.0001, -180) the
tour `[0, 1]` costs 800064, twice the 400032 of the edge from a to b. Measured
from the last tour coordinate back to the first, the wrap-around edge from b to a
would be 400031, and the claimed total 400032 + 400031 = 800063. -/
theorem calcCost_wrap_direction :
    calcCost [0, 1] [(0, 180), (0.0001, -180)] = some 800064
      ∧ scaledDistance (0, 180) (0.0001, -180) = some 400032
      ∧ scaledDistance (0.0001, -180) (0, 180) = some 400031 := by
  refine ⟨?_, scaledDistance_forward, scaledDistance_backward⟩
  rw [calcCost_pair, scaledDistance_forward]
  rfl

/-- C6, amended: for every non-empty tour of valid indices, with `w` the wrap-around
term `(int)(10 * distance(coords[t_0], coords[t_(n-1)]))`, measured from the first
tour coordinate to the last, and `es` the terms
`(int)(10 * distance(coords[t_i], coords[t_(i+1)]))` of the consecutive pairs, every
edge truncated on its own: `calcCost` is the sum `w + es.sum` kept in an `int`,
that is, reduced modulo `2^32`; it is the sum itself whenever the sum is an
`int`; and it has a value when every latitude lies strictly between -90 and 90
degrees and ten times every distance between two coordinates is below `2^31`. -/
theorem calcCost_eq_sum (tour : List Int) (pts : List Coord) (hne : tour ≠ [])
    (hidx : ∀ t ∈ tour, 0 ≤ t ∧ t < pts.length) :
    calcCost tour pts
        = (edgeCost pts (tour.head hne) (tour.getLast hne)).bind (fun w =>
            ((tour.zip tour.tail).mapM (fun e => edgeCost pts e.1 e.2)).map
              (fun es => wrapInt (w + es.sum)))
      ∧ (∀ (w : Int) (es : List Int),
          edgeCost pts (tour.head hne) (tour.getLast hne) = some w →
          (tour.zip tour.tail).mapM (fun e => edgeCost pts e.1 e.2) = some es →
          -2147483648 ≤ w + es.sum → w + es.sum ≤ 2147483647 →
          calcCost tour pts = some (w + es.sum))
      ∧ ((∀ p ∈ pts, -90 < p.1 ∧ p.1 < 90) →
          (∀ a ∈ pts, ∀ b ∈ pts, ∀ d, rhumbline a.1 a.2 b.1 b.2 = some d →
            10 * d < 2147483648) →
          (calcCost tour pts).isSome = true) := by
  have hlen : 0 < tour.length := List.length_pos.mpr hne
  have h0 : tour[0]? = some (tour.head hne) := by
    cases tour with
    | nil => exact absurd rfl hne
    | cons a l => simp
  have hl : tour[tour.length - 1]? = some (tour.getLast hne) := by
    rw [List.getLast_eq_getElem, List.getElem?_eq_getElem]
  have heq : calcCost tour pts
      = (edgeCost pts (tour.head hne) (tour.getLast hne)).bind (fun w =>
          ((tour.zip tour.tail).mapM (fun e => edgeCost pts e.1 e.2)).map
            (fun es => wrapInt (w + es.sum))) := by
    unfold calcCost
    rw [h0, hl]
    simp only [Option.bind_eq_bind, Option.some_bind]
    cases hw : edgeCost pts (tour.head hne) (tour.getLast hne) with
    | none => rfl
    | some w =>
      obtain ⟨h1, h2⟩ := edgeCost_range pts _ _ w hw
      simp only [Option.some_bind]
      rw [calcCostLoop_eq tour pts (tour.length - 1) 0 w (by omega) h1 h2]
      simp only [List.drop_zero, zero_add, List.drop_one]
  refine ⟨heq, ?_, ?_⟩
  · intro w es hw hes h1 h2
    rw [heq, hw, Option.some_bind, hes, Option.map_some', wrapInt_of_range _ h1 h2]
  · intro hlat hbound
    unfold calcCost
    rw [h0, hl]
    simp only [Option.bind_eq_bind, Option.some_bind]
    obtain ⟨w, hw⟩ := Option.isSome_iff_exists.mp
      (edgeCost_of_valid pts (tour.head hne) (tour.getLast hne)
        (hidx _ (List.head_mem hne)) (hidx _ (List.getLast_mem hne)) hlat hbound)
    rw [hw, Option.some_bind]
    exact calcCostLoop_isSome tour pts hidx hlat hbound (tour.length - 1) 0 w (by omega)

theorem calcCost_eq_sum_witness :
    ([0, 1] : List Int) ≠ []
      ∧ calcCost [0, 1] [(0, 180), (0.0001, -180)] = some (400032 + [400032].sum) :=
  ⟨by decide,
    (calcCost_eq_sum [0, 1] [(0, 180), (0.0001, -180)] (by decide) (by simp)).2.1
      400032 [400032]
      (by
        show edgeCost [(0, 180), (0.0001, -180)] 0 1 = some 400032
        rw [edgeCost_pair, scaledDistance_forward])
      (by
        show List.mapM (fun e => edgeCost [((0 : ℝ), (180 : ℝ)), (0.0001, -180)] e.1 e.2)
          [((0 : Int), (1 : Int))] = some [400032]
        simp only [List.mapM_cons, List.mapM_nil, edgeCost_pair, scaledDistance_forward]
        rfl)
      (by decide) (by decide)⟩

/-- C8, counterexample: at the latitude -90 degrees the distance from a coordinate
to itself has no value: `tan(lat / 2 + π / 4)` is `0` and the quotient of the two
tangents is `0 / 0`. -/
theorem rhumbline_self_south_pole : rhumbline (-90) 0 (-90) 0 = none := by
  have hu : DegToRad (-90) / 2 + M_PI / 4 = 0 := by
    unfold DegToRad
    ring
  simp [rhumbline, trueCourse, hu, tan, fdiv]

/-- C8, amended: for every coordinate whose latitude is not an odd multiple of 90
degrees, in particular for every latitude strictly between -90 and 90 degrees,
the distance from the coordinate to itself is `0`. -/
theorem rhumbline_self (lat lon : ℝ) (h : ∀ k : ℤ, lat ≠ 90 + 180 * k) :
    rhumbline lat lon lat lon = some 0 := by
  have hp := Real.pi_pos
  have hc : Real.cos (DegToRad lat / 2 + M_PI / 4) ≠ 0 := by
    intro h0
    obtain ⟨k, hk⟩ := Real.cos_eq_zero_iff.mp h0
    apply h (2 * k)
    unfold DegToRad M_PI at hk
    have : lat / 180 / 2 + 1 / 4 = (2 * (k : ℝ) + 1) / 2 := by
      have h3 : (lat / 180 / 2 + 1 / 4) * Real.pi = (2 * (k : ℝ) + 1) / 2 * Real.pi := by
        linarith
      exact mul_right_cancel₀ hp.ne' h3
    push_cast
    linarith
  have hs : Real.sin (DegToRad lat / 2 + M_PI / 4) ≠ 0 := by
    intro h0
    obtain ⟨n, hn⟩ := Real.sin_eq_zero_iff.mp h0
    apply h (2 * n - 1)
    unfold DegToRad M_PI at hn
    have : lat / 180 / 2 + 1 / 4 = (n : ℝ) := by
      have h3 : (lat / 180 / 2 + 1 / 4) * Real.pi = (n : ℝ) * Real.pi := by linarith
      exact mul_right_cancel₀ hp.ne' h3
    push_cast
    linarith
  have ht : Real.tan (DegToRad lat / 2 + M_PI / 4) ≠ 0 := by
    rw [Real.tan_eq_sin_div_cos]
    exact div_ne_zero hs hc
  have hd : DegToRad 0 = 0 := by simp [DegToRad]
  have hz : atan2 0 0 = 0 := by
    have : (⟨0, 0⟩ : ℂ) = 0 := rfl
    simp [atan2, this]
  have hm : Mod 0 (M_PI * 2) = some 0 := by
    rw [Mod_of_angle 0 (by linarith) (by linarith)]
    simp
  have hw : ¬ inWindow 0 := by
    unfold inWindow
    norm_num
  simp [rhumbline, trueCourse, tan, hc, fdiv, ht, log, hd, hz, hm, distanceNM, hw]

theorem rhumbline_self_witness : rhumbline 45 10 45 10 = some 0 :=
  rhumbline_self 45 10 (by
    intro k hk
    have h2 : (45 : ℤ) = 90 + 180 * k := by exact_mod_cast hk
    omega)

/-- C9: for coordinates whose latitudes lie strictly between -90 and 90 degrees,
`rhumbline` has a value and the value is non-negative, whichever of the two
branches computes it. -/
theorem rhumbline_nonneg (p1lat p1long p2lat p2long : ℝ)
    (h1 : -90 < p1lat) (h1' : p1lat < 90) (h2 : -90 < p2lat) (h2' : p2lat < 90) :
    ∃ d, rhumbline p1lat p1long p2lat p2long = some d ∧ 0 ≤ d :=
  ⟨_, rhumbline_of_valid p1lat p1long p2lat p2long h1 h1' h2 h2',
    distanceValue_nonneg p1lat p1long p2lat p2long h1 h1' h2 h2'⟩

theorem rhumbline_nonneg_witness :
    ∃ d, rhumbline 40 (-75) 41 (-76) = some d ∧ 0 ≤ d :=
  rhumbline_nonneg 40 (-75) 41 (-76) (by norm_num) (by norm_num) (by norm_num) (by norm_num)

/-- C10: in a run that reads the cycle file (an input name is given, `-o` is not,
and at least 4 records were read), when the number of cycle entries differs from
the number of coordinates after deduplication the run exits with failure and no
effect is a call of `calcCost` or an output; when the two counts are equal the
run calls `calcCost` on the tour and the deduplicated coordinates and, with its
result, reports the totals, calls the visualization writer and exits with
success. -/
theorem main_cycle_count_check (env : Env) (argv : List String) (h2 : 2 ≤ argv.length)
    (hmode : (parseCommandline argv argv.length true false).2 = false)
    (hn : MIN_COORDINATES ≤ (env.csvRows (argv.getD 1 "")).length) :
    ((env.cycleEntries (argv.getD 1 "")).length
          ≠ (dedup coordEq (env.csvRows (argv.getD 1 ""))).length →
        ∃ effs, main env argv = some (effs, ExitCode.EXIT_FAILURE)
          ∧ ∀ e ∈ effs, e.isCostEvaluated = false ∧ e.isOutput = false)
    ∧ ((env.cycleEntries (argv.getD 1 "")).length
          = (dedup coordEq (env.csvRows (argv.getD 1 ""))).length →
        main env argv
          = (calcCost (env.cycleEntries (argv.getD 1 ""))
                (dedup coordEq (env.csvRows (argv.getD 1 "")))).map
              (fun cost =>
                (removedReport (env.csvRows (argv.getD 1 "")).length
                    (dedup coordEq (env.csvRows (argv.getD 1 ""))).length
                  ++ [Effect.costEvaluated (env.cycleEntries (argv.getD 1 ""))
                        (dedup coordEq (env.csvRows (argv.getD 1 ""))) cost,
                      Effect.numberOfCoordinates
                        (dedup coordEq (env.csvRows (argv.getD 1 ""))).length,
                      Effect.totalDistance ((cost / scaleFactor) * NM_PER_KM)
                        ((env.cycleEntries (argv.getD 1 "")
                          ++ (env.cycleEntries (argv.getD 1 "")).take 1).map (fun i => i + 1)),
                      Effect.kmlFile (argv.getD 1 "")
                        (dedup coordEq (env.csvRows (argv.getD 1 "")))
                        (env.cycleEntries (argv.getD 1 ""))
                        (parseCommandline argv argv.length true false).1],
                  ExitCode.EXIT_SUCCESS))) := by
  have h2' : ¬ argv.length < 2 := by omega
  have hn' : ¬ (env.csvRows (argv.getD 1 "")).length < MIN_COORDINATES := by omega
  constructor
  · intro hne
    refine ⟨removedReport (env.csvRows (argv.getD 1 "")).length
        (dedup coordEq (env.csvRows (argv.getD 1 ""))).length
      ++ [Effect.mismatch (dedup coordEq (env.csvRows (argv.getD 1 ""))).length
            (env.cycleEntries (argv.getD 1 "")).length], ?_, ?_⟩
    · simp only [main, h2', if_false, hn', hmode, hne, ne_eq, not_false_eq_true, if_true,
        Bool.false_eq_true]
    · intro e he
      simp only [List.mem_append, List.mem_singleton, removedReport] at he
      rcases he with he | he
      · split at he
        · simp at he; subst he; simp [Effect.isCostEvaluated, Effect.isOutput]
        · simp at he
      · subst he; simp [Effect.isCostEvaluated, Effect.isOutput]
  · intro heq
    simp only [main, h2', if_false, hn', hmode, heq, ne_eq, not_true_eq_false,
      Bool.false_eq_true]

theorem main_cycle_count_check_witness :
    (dedup coordEq fourCoords).length = 4
      ∧ ∃ effs, main (scenarioEnv fourCoords [0, 1, 2]) ["CtoK", "data"]
            = some (effs, ExitCode.EXIT_FAILURE)
          ∧ ∀ e ∈ effs, e.isCostEvaluated = false ∧ e.isOutput = false :=
  ⟨by rw [dedup_fourCoords]; rfl,
    (main_cycle_count_check (scenarioEnv fourCoords [0, 1, 2]) ["CtoK", "data"]
      (by decide) (by decide) (by decide)).1
      (by simp only [scenarioEnv, dedup_fourCoords]; simp [fourCoords])⟩

/-- C11, counterexample: the row `99999999999 3` holds two decimal integers
separated by a single space, and `readCycleFile` does not return: `std::stoi`
throws `out_of_range` on the first, which is not an `int`. -/
theorem readCycleFile_out_of_range :
    readCycleFile (some ["99999999999 3"]) [] = none := by
  decide

/-- C11, amended: for rows that each hold one or more decimal integers, every one of
them a value of `int` (between `-2^31` and `2^31 - 1`), separated by single
spaces, `readCycleFile` appends to the tour the value of the last integer of
every row, in row order, and returns the number of rows; the rows `0`, `1`,
`2`, `3` give the tour `[0, 1, 2, 3]`. -/
theorem readCycleFile_last_tokens (rows : List (List Numeral)) (tour : List (Option Int))
    (h : ∀ r ∈ rows, r ≠ [] ∧ ∀ t ∈ r, t.wellFormed) :
    readCycleFile (some (rows.map numeralRow)) tour
        = some (tour ++ rows.map (fun r => some (lastValue r)), rows.length)
      ∧ readCycleFile (some ["0", "1", "2", "3"]) []
        = some ([some 0, some 1, some 2, some 3], 4) := by
  refine ⟨?_, by decide⟩
  rw [readCycleFile, readCycleRows_numerals rows tour 0 h]
  simp

theorem readCycleFile_last_tokens_witness :
    readCycleFile (some ["12 7 3", "-4", "0 15"]) [some 9]
      = some ([some 9, some 3, some (-4), some 15], 3) :=
  (readCycleFile_last_tokens
    [[(false, ['1', '2']), (false, ['7']), (false, ['3'])], [(true, ['4'])],
      [(false, ['0']), (false, ['1', '5'])]] [some 9]
    (by simp [Numeral.wellFormed, Numeral.value, digitsValue])).1

/-- C12: for `N` coordinates the text `writeTSPFile` writes is the six header lines
`NAME: <name><N>`, `TYPE: TSP`, `COMMENT: Generated by CtoK writeTSPFile`,
`DIMENSION: <N>`, `EDGE_WEIGHT_TYPE: EUC_2D`, `NODE_COORD_SECTION`, followed by one
line per coordinate in order, the `k`-th being `<k> <longitude> <latitude>` with
`k` counted from 1. -/
theorem writeTSPFile_text (showDouble : ℝ → String) (stem : String) (pts : List Coord) :
    writeTSPFile showDouble true stem pts.length pts
      = some (true, some (
          [ "NAME: " ++ tspName stem ++ toString pts.length,
            "TYPE: TSP",
            "COMMENT: Generated by CtoK writeTSPFile",
            "DIMENSION: " ++ toString pts.length,
            "EDGE_WEIGHT_TYPE: EUC_2D",
            "NODE_COORD_SECTION" ]
          ++ pts.enum.map (fun p =>
              toString (p.1 + 1) ++ " " ++ showDouble p.2.2 ++ " " ++ showDouble p.2.1))) := by
  have h := nodeLinesLoop_eq showDouble pts pts.length 0 (by omega)
  simp only [List.drop_zero, List.take_length] at h
  simp only [writeTSPFile, if_true, tspLines, nodeLines, h, Option.map_some', List.enum]

/-- C13, counterexample: the row `40.0`, with a single field, and the empty row are
each appended to the table and counted; the components that no field filled are
left unassigned. -/
theorem readCSVFile_short_rows :
    readCSVFile stodPlain (some ["40.0"]) [] = some ([(some 40, none)], 1)
      ∧ readCSVFile stodPlain (some [""]) [] = some ([(none, none)], 1) := by
  constructor
  · have h : stodPlain "40.0" = some 40 := by simp [stodPlain, isSpace, digitsValue]
    have ht : tokens ',' "40.0" = ["40.0"] := by decide
    simp [readCSVFile, readCSVRows, ht, fillRow, h]
  · have ht : tokens ',' "" = [] := by decide
    simp [readCSVFile, readCSVRows, ht, fillRow]

/-- C13, amended: loading does not return when one of the first two fields of some
row is not numeric text, `std::stod` throwing on it; and when every row has at
most two fields, all numeric, loading appends one row per input row, rows with
one field or none included, and returns the number of rows. -/
theorem readCSVFile_conversion (stod : String → Option ℝ) (rows : List String)
    (table : List RawRow) :
    ((∃ sRow ∈ rows, ∃ value ∈ (tokens ',' sRow).take 2, stod value = none) →
        readCSVFile stod (some rows) table = none)
      ∧ ((∀ sRow ∈ rows,
            (tokens ',' sRow).length ≤ 2 ∧ ∀ value ∈ tokens ',' sRow, stod value ≠ none) →
          ∃ new, readCSVFile stod (some rows) table = some (table ++ new, rows.length)
            ∧ new.length = rows.length) := by
  constructor
  · intro h
    exact readCSVRows_none stod rows table 0 h
  · intro h
    obtain ⟨new, hnew, hl⟩ := readCSVRows_some stod rows table 0 h
    exact ⟨new, by simpa [readCSVFile] using hnew, hl⟩

theorem readCSVFile_conversion_witness :
    readCSVFile stodPlain (some ["40.0,-75.0", "north,-76.0"]) [] = none :=
  (readCSVFile_conversion stodPlain ["40.0,-75.0", "north,-76.0"] []).1
    ⟨"north,-76.0", by simp, "north", by decide, by simp [stodPlain, isSpace]⟩

/-- C14, the code at the failing input: the derived name is `removeExt(fn)`
unchanged for every input, so with `removeExt(fn) = dir/data` and 4 coordinates
the first line written is `NAME: dir/data4`, the directory still in it. -/
theorem tspName_keeps_path :
    (∀ stem : String, tspName stem = stem)
      ∧ (tspLines (fun _ => "#") "dir/data" 4 fourCoords).map (fun ls => ls.head?)
        = some (some "NAME: dir/data4") := by
  refine ⟨tspName_eq, ?_⟩
  simp [tspLines, nodeLines, nodeLinesLoop, fourCoords, tspName_eq]
  decide

/-- C15, counterexample: `Mod(-1, 1)` is `1`, which is not below the modulus. -/
theorem Mod_neg_one_one : Mod (-1) 1 = some 1 := by
  rw [Mod_neg_value (-1) 1 (by norm_num) (by norm_num)]
  norm_num

/-- C15, amended: for every `x > 0` and every `y`, `Mod(y, x)` has a value that
differs from `y` by an integer multiple of `x` and lies in `[0, x]`; it is `x`
itself exactly when `y` is a negative integer multiple of `x`, and lies in
`[0, x)` for every other `y`. -/
theorem Mod_spec (y x : ℝ) (hx : 0 < x) :
    ∃ r, Mod y x = some r ∧ (∃ k : ℤ, r = y + k * x) ∧ 0 ≤ r ∧ r ≤ x
      ∧ (r = x ↔ y < 0 ∧ ∃ m : ℤ, y = m * x) := by
  by_cases hy : 0 ≤ y
  · have h1 : (⌊y / x⌋ : ℝ) ≤ y / x := Int.floor_le _
    have h2 : y / x < (⌊y / x⌋ : ℝ) + 1 := Int.lt_floor_add_one _
    rw [le_div_iff₀ hx] at h1
    rw [div_lt_iff₀ hx] at h2
    refine ⟨_, Mod_nonneg_value y x hx hy, ⟨-⌊y / x⌋, by push_cast; ring⟩, by linarith,
      by linarith, ?_⟩
    constructor
    · intro h; exfalso; linarith
    · rintro ⟨h, _⟩; exfalso; linarith
  · push_neg at hy
    have h1 : (⌊-(y / x)⌋ : ℝ) ≤ -(y / x) := Int.floor_le _
    have h2 : -(y / x) < (⌊-(y / x)⌋ : ℝ) + 1 := Int.lt_floor_add_one _
    have hq : -(y / x) * x = -y := by field_simp
    have h1 : (⌊-(y / x)⌋ : ℝ) * x ≤ -y := by
      have := mul_le_mul_of_nonneg_right h1 hx.le
      rwa [hq] at this
    have h2 : -y < ((⌊-(y / x)⌋ : ℝ) + 1) * x := by
      have := mul_lt_mul_of_pos_right h2 hx
      rwa [hq] at this
    refine ⟨_, Mod_neg_value y x hx hy, ⟨⌊-(y / x)⌋ + 1, by push_cast; ring⟩, by linarith,
      by linarith, ?_⟩
    constructor
    · intro h
      refine ⟨hy, -⌊-(y / x)⌋, ?_⟩
      push_cast
      linarith
    · rintro ⟨_, m, hm⟩
      have hq : -(y / x) = ((-m : ℤ) : ℝ) := by
        rw [hm, mul_div_assoc, div_self hx.ne']
        push_cast
        ring
      rw [hq, Int.floor_intCast, hm]
      push_cast
      ring

theorem Mod_spec_witness :
    ∃ r, Mod (-7) 2 = some r ∧ (∃ k : ℤ, r = -7 + k * 2) ∧ 0 ≤ r ∧ r ≤ 2
      ∧ (r = 2 ↔ (-7 : ℝ) < 0 ∧ ∃ m : ℤ, (-7 : ℝ) = m * 2) :=
  Mod_spec (-7) 2 (by norm_num)

/-- C16, counterexample: between two coordinates of latitude -90 degrees the bearing
has no value: both tangents are `tan 0 = 0` and their quotient is `0 / 0`. -/
theorem trueCourse_south_pole : trueCourse (-90) 10 (-90) 20 = none := by
  have hu : DegToRad (-90) / 2 + M_PI / 4 = 0 := by
    unfold DegToRad
    ring
  simp [trueCourse, hu, tan, fdiv]

/-- C16, amended: whenever the bearing computed inside `rhumbline` has a value, the
value `tc` satisfies `0 ≤ tc < 2π`; and it has a value whenever both latitudes lie
strictly between -90 and 90 degrees. -/
theorem trueCourse_range (p1lat p1long p2lat p2long : ℝ) :
    (∀ tc, trueCourse p1lat p1long p2lat p2long = some tc → 0 ≤ tc ∧ tc < 2 * Real.pi)
      ∧ (-90 < p1lat ∧ p1lat < 90 → -90 < p2lat ∧ p2lat < 90 →
          ∃ tc, trueCourse p1lat p1long p2lat p2long = some tc ∧ 0 ≤ tc ∧ tc < 2 * Real.pi) := by
  have hall : ∀ tc, trueCourse p1lat p1long p2lat p2long = some tc →
      0 ≤ tc ∧ tc < 2 * Real.pi := by
    intro tc h
    obtain ⟨y, hy1, hy2, rfl⟩ := trueCourse_some _ _ _ _ tc h
    exact normalize_range y hy1 hy2
  refine ⟨hall, fun h1 h2 => ?_⟩
  have h := trueCourse_of_valid p1lat p1long p2lat p2long h1.1 h1.2 h2.1 h2.2
  exact ⟨_, h, hall _ h⟩

theorem trueCourse_range_witness :
    ∃ tc, trueCourse 40 (-75) 41 (-76) = some tc ∧ 0 ≤ tc ∧ tc < 2 * Real.pi :=
  (trueCourse_range 40 (-75) 41 (-76)).2 ⟨by norm_num, by norm_num⟩ ⟨by norm_num, by norm_num⟩

/-- C17: whenever the bearing `tc` has a value outside both windows, `cos(tc)` is not
zero and the general branch yields `60 * ((p2lat - p1lat) / cos(tc))`; the two
bearings at which the cosine vanishes, `π / 2` and `3π / 2`, lie inside the
windows. -/
theorem general_branch_divisor_ne_zero (p1lat p1long p2lat p2long tc : ℝ)
    (h : trueCourse p1lat p1long p2lat p2long = some tc) (hw : ¬ inWindow tc) :
    Real.cos tc ≠ 0
      ∧ distanceNM tc p1lat p1long p2lat p2long = some (60 * ((p2lat - p1lat) / Real.cos tc))
      ∧ inWindow (Real.pi / 2) ∧ inWindow (3 * Real.pi / 2) := by
  obtain ⟨y, hy1, hy2, rfl⟩ := trueCourse_some _ _ _ _ tc h
  have hc : Real.cos (normalize y) ≠ 0 := fun h0 => hw (inWindow_of_cos_eq_zero y hy1 hy2 h0)
  refine ⟨hc, ?_, pi_div_two_inWindow, three_pi_div_two_inWindow⟩
  rw [distanceNM, if_neg hw, fdiv_of_ne _ hc]
  rfl

theorem general_branch_divisor_ne_zero_witness :
    Real.cos 0 ≠ 0
      ∧ distanceNM 0 45 10 45 10 = some (60 * ((45 - 45) / Real.cos 0))
      ∧ inWindow (Real.pi / 2) ∧ inWindow (3 * Real.pi / 2) :=
  general_branch_divisor_ne_zero 45 10 45 10 0
    (trueCourse_same_point 45 10 (by norm_num) (by norm_num)) not_inWindow_zero

/-- C18: for two coordinates of the same latitude, strictly between -90 and 90
degrees, and of different longitudes, the bearing is `π / 2` or `3π / 2`, it lies
in a window, so the 90/270 branch is taken, and the distance is
`1.852 * 60 * |lon_b - lon_a| * cos(lat_a)` kilometres, the latitude in radians. -/
theorem rhumbline_same_latitude (lat lon1 lon2 : ℝ) (h1 : -90 < lat) (h2 : lat < 90)
    (hne : lon1 ≠ lon2) :
    (trueCourse lat lon1 lat lon2 = some (Real.pi / 2)
        ∨ trueCourse lat lon1 lat lon2 = some (3 * Real.pi / 2))
      ∧ (∀ tc, trueCourse lat lon1 lat lon2 = some tc → inWindow tc)
      ∧ rhumbline lat lon1 lat lon2
          = some (1.852 * 60 * |lon2 - lon1| * Real.cos (DegToRad lat)) := by
  have htc := trueCourse_of_valid lat lon1 lat lon2 h1 h2 h1 h2
  have hw := inWindow_same_latitude lat lon1 lon2 h1 h2 hne
  refine ⟨?_, ?_, ?_⟩
  · rcases courseValue_same_latitude lat lon1 lon2 h1 h2 hne with h | h
    · left; rw [htc, h]
    · right; rw [htc, h]
  · intro tc h
    rw [htc] at h
    rw [← Option.some.inj h]
    exact hw
  · rw [rhumbline_of_valid lat lon1 lat lon2 h1 h2 h1 h2, distanceValue, if_pos hw, KM_PER_NM]
    congr 1
    ring

theorem rhumbline_same_latitude_witness :
    rhumbline 40 (-75) 40 (-76) = some (1.852 * 60 * |(-76 : ℝ) - -75| * Real.cos (DegToRad 40)) :=
  (rhumbline_same_latitude 40 (-75) (-76) (by norm_num) (by norm_num) (by norm_num)).2.2

/-- C19: the distance depends on the direction: from (0, 180) to (0.0001, -180) it
is `21600 * 1.852` kilometres, and from (0.0001, -180) to (0, 180) it is that
value times the cosine of 0.0001 degrees, which is smaller. -/
theorem rhumbline_direction_dependent :
    ∃ a b : Coord, (-90 < a.1 ∧ a.1 < 90) ∧ (-90 < b.1 ∧ b.1 < 90)
      ∧ ∃ d1 d2, rhumbline a.1 a.2 b.1 b.2 = some d1 ∧ rhumbline b.1 b.2 a.1 a.2 = some d2
        ∧ d1 ≠ d2 := by
  refine ⟨(0, 180), (0.0001, -180), ⟨by norm_num, by norm_num⟩, ⟨by norm_num, by norm_num⟩,
    _, _,
    rhumbline_of_valid 0 180 0.0001 (-180) (by norm_num) (by norm_num) (by norm_num)
      (by norm_num),
    rhumbline_of_valid 0.0001 (-180) 0 180 (by norm_num) (by norm_num) (by norm_num)
      (by norm_num), ?_⟩
  rw [distanceValue_forward, distanceValue_backward]
  have hk := KM_PER_NM_pos
  have hc := cos_small_lt_one
  intro h
  have : 21600 * Real.cos (Real.pi / 1800000) * KM_PER_NM < 21600 * KM_PER_NM := by
    nlinarith
  linarith

/-- C20: for every non-empty tour whose entries are valid indices into `pts`, no
element access of `calcCost` is out of range: a run of `calcCost` that yields no
value does so only because a distance has none or, scaled and truncated, is not
an `int`. And in a run of `main` that
reaches the call of `calcCost`, the tour is not empty and has as many entries as
there are deduplicated coordinates; every run whose effects hold a call of
`calcCost` is such a run. -/
theorem calcCost_accesses_in_range :
    (∀ (tour : List Int) (pts : List Coord), tour ≠ [] →
        (∀ t ∈ tour, 0 ≤ t ∧ t < pts.length) →
        calcCostE tour pts ≠ Except.error Fault.outOfRange
          ∧ (calcCostE tour pts).toOption = calcCost tour pts)
      ∧ (∀ (env : Env) (argv : List String), reachesCalcCost env argv →
          env.cycleEntries (argv.getD 1 "") ≠ []
            ∧ (env.cycleEntries (argv.getD 1 "")).length
                = (dedup coordEq (env.csvRows (argv.getD 1 ""))).length)
      ∧ (∀ (env : Env) (argv : List String) (effs : List Effect) (code : ExitCode)
          (tour : List Int) (pts : List Coord) (cost : Int),
          main env argv = some (effs, code) → Effect.costEvaluated tour pts cost ∈ effs →
          reachesCalcCost env argv ∧ tour ≠ [] ∧ tour.length = pts.length
            ∧ pts = dedup coordEq (env.csvRows (argv.getD 1 ""))) := by
  refine ⟨fun tour pts hne hidx =>
      ⟨calcCostE_ne_outOfRange tour pts hne hidx, calcCostE_toOption tour pts⟩,
    reachesCalcCost_tour, ?_⟩
  intro env argv effs code tour pts cost hrun hmem
  obtain ⟨hreach, rfl, rfl, _⟩ := main_costEvaluated env argv effs code tour pts cost hrun hmem
  obtain ⟨h1, h2⟩ := reachesCalcCost_tour env argv hreach
  exact ⟨hreach, h1, h2, rfl⟩

theorem calcCost_accesses_in_range_witness :
    calcCostE [0, 1, 2, 3] fourCoords ≠ Except.error Fault.outOfRange
      ∧ (calcCostE [0, 1, 2, 3] fourCoords).toOption = calcCost [0, 1, 2, 3] fourCoords :=
  calcCost_accesses_in_range.1 [0, 1, 2, 3] fourCoords (by decide) (by simp [fourCoords])

end CtoK
